import Mathlib

/-!
Verification of the burndown core of smacker/hercules.

The Go sources are shallowly embedded: pure fragments become Lean
functions; Go maps become total functions (a lookup of a missing key
reads as the zero value, exactly as in Go); Go `int64`/`int` values are
modelled as `Int` with explicit two's-complement wrapping where overflow
matters; code that can fail or panic returns `Option`/`Except`.
-/

set_option maxHeartbeats 1000000

namespace Hercules

/-! ## globalCounter (unnamed/part_000)

The counter state. `diffs` is the Go `map[int]map[int]int64`, read as a
total function: a missing key reads as 0, as a Go map lookup does. Only
nonnegative days are ever written or read (`update` receives days from
DaysSinceStart and the loops of `matrix`/`groupByDay` run over `0 ≤ i < day`),
so days are modelled as `Nat`. -/
structure GlobalCounter where
  diffs : Nat → Nat → Int
  lastDay : Nat

/-- Go `newGlobalCounter`: empty diffs map, zero `lastDay`. -/
def newGlobalCounter : GlobalCounter :=
  { diffs := fun _ _ => 0, lastDay := 0 }

/-- Go `globalCounter.update`: `diffs[commitDay][updateDay] += delta` and
`lastDay = max(lastDay, commitDay)`. -/
def GlobalCounter.update (c : GlobalCounter) (commitDay updateDay : Nat)
    (delta : Int) : GlobalCounter :=
  { diffs := fun cd ud =>
      if cd = commitDay ∧ ud = updateDay then c.diffs cd ud + delta
      else c.diffs cd ud
    lastDay := if commitDay > c.lastDay then commitDay else c.lastDay }

/-- Two's-complement wrap of an integer into `[-2^63, 2^63)`: the value a
Go `int64` (or 64-bit `int`) holds after an overflowing operation. -/
def wrap64 (n : Int) : Int := (n + 2 ^ 63) % 2 ^ 64 - 2 ^ 63

/-- The key range on which the 64-bit comparisons of rbtree.go
(`comp := item.Key - parent.item.Key`, `comp := key - n.item.Key`) cannot
overflow: the difference of two values in `[-2^62, 2^62)` stays inside
`int64`. -/
abbrev safeKey (k : Int) : Prop := -(2 ^ 62) ≤ k ∧ k < 2 ^ 62

/-- The inner loop of `groupByDay`:
`for j := 0; j < day; j++ { group += c.diffs[j][i] }` — `group` is an
`int64`, so every `+=` wraps at 64 bits. -/
def innerLoop (diffs : Nat → Nat → Int) (i : Nat) (group : Int) : Nat → Int
  | 0 => group
  | d + 1 => wrap64 (innerLoop diffs i group d + diffs d i)

/-- One iteration of the outer `i` loop of `groupByDay`: run the inner
loop on `group`; on a band boundary (`i % granularity == granularity-1`)
store `group` at `status[i/granularity]` and reset it. -/
def gbdStep (diffs : Nat → Nat → Int) (g day : Nat)
    (st : List Int × Int) (i : Nat) : List Int × Int :=
  let group := innerLoop diffs i st.2 day
  if i % g = g - 1 then (st.1.set (i / g) group, 0) else (st.1, group)

/-- Go `globalCounter.groupByDay`: the row of alive-line counts for `day`,
grouped into bands of `granularity` days. -/
def groupByDay (diffs : Nat → Nat → Int) (granularity day : Nat) : List Int :=
  let g := if granularity = 0 then 1 else granularity
  let adjust := if day % g ≠ 0 then 1 else 0
  let init : List Int × Int := (List.replicate (day / g + adjust) 0, 0)
  let st := (List.range day).foldl (gbdStep diffs g day) init
  if day % g ≠ 0 then st.1.set (st.1.length - 1) st.2 else st.1

/-- Go `globalCounter.matrix`: walk `day` from 0 to `lastDay`; each time
`day/sampling` grows by `delta > 0`, append `delta` copies of the
`groupByDay` row for `day`; finally append the row for `lastDay + 1`.
`sampling` must be positive (`Initialize` guarantees it; Go would panic
on a division by zero). -/
def GlobalCounter.matrix (c : GlobalCounter) (sampling granularity : Nat) :
    List (List Int) :=
  let step := fun (st : List (List Int) × Nat) (day : Nat) =>
    let delta := day / sampling - st.2 / sampling
    if 0 < delta then
      (st.1 ++ List.replicate delta (groupByDay c.diffs granularity day), day)
    else st
  let st := (List.range (c.lastDay + 1)).foldl step ([], 0)
  st.1 ++ [groupByDay c.diffs granularity (c.lastDay + 1)]

/-! ## packPersonWithDay / unpackPersonWithDay (burndown.go)

Go `int` is 64 bits on the platforms hercules runs on; shifts wrap and
`>>` is an arithmetic shift. `wrap64` (above) is the canonical signed
64-bit wrap-around. -/

/-- Go `packPersonWithDay`: `result := day; result |= person << 14`.
The shift is a 64-bit shift, so it wraps. -/
def packPersonWithDay (person day : Int) : Int :=
  Int.lor day (wrap64 (person * 2 ^ 14))

/-- Go `unpackPersonWithDay`: `value >> 14` (an arithmetic shift on a signed
64-bit int, which `Int.shiftRight` implements) and `value & 0x3FFF`. -/
def unpackPersonWithDay (value : Int) : Int × Int :=
  (Int.shiftRight value 14, Int.land value 0x3FFF)

/-! ## changeMerger (change_merger.go)

Only the `merkletrie.Insert` arm of `processChange` is needed here. `File`
objects are left abstract (type parameter `α`); the `files`/`sideFiles`
snapshots are maps from path to `*File`, modelled as `String → Option α`.
The `isBinary(p.cache[...])` call is an input: `Except.error e` when
`isBinary` fails, otherwise `Except.ok` with the binary flag. The second
component of the result is the returned `error` (`none` for `nil`). -/

/-- Go map assignment `m[k] = v`. -/
def updateMap {α : Type} (m : String → Option α) (k : String) (v : α) :
    String → Option α :=
  fun s => if s = k then some v else m s

/-- The `case merkletrie.Insert` branch of `changeMerger.processChange`:
on a binary blob, skip; otherwise require `sideFiles[nameTo]` and install
that very `File` under `files[nameTo]`; a missing side file returns an
error. -/
def mergerProcessInsert {α : Type} (isBin : Except String Bool)
    (nameTo : String) (sideFiles files : String → Option α) :
    (String → Option α) × Option String :=
  match isBin with
  | .error e => (files, some e)
  | .ok true => (files, none)
  | .ok false =>
    match sideFiles nameTo with
    | none => (files, some ("file " ++ nameTo ++ " not found in side files"))
    | some f => (updateMap files nameTo f, none)

/-- Go `changeMerger.Process`: apply `processChange` to each change, aborting
the commit with the first error. A change is abstracted to the function it
applies (here always an Insert arm instance). -/
def mergerProcess {α : Type}
    (steps : List ((String → Option α) → (String → Option α) × Option String))
    (files : String → Option α) :
    Option (String → Option α) × Option String :=
  match steps with
  | [] => (some files, none)
  | step :: rest =>
    match step files with
    | (_, some e) => (none, some e)
    | (files', none) => mergerProcess rest files'

/-! ## BurndownAnalysis.Consume (burndown.go)

A snapshot is a `{path → File}` map, modelled as an association list so the
deep copy `copyFiles` is a plain `map`. The store `analyser.files` maps a
commit hash to its snapshot; `commitDeps` is the reference-count map of
`cleanup` (a Go map read of a missing key is 0, and `delete` makes later
reads 0 again, so it is a total function `String → Int`). The actual change
processing (`changeApplier`/`changeMerger.Process`) is abstracted into the
`applier` and `merger` arguments; `cp` is `File.Copy`. -/

/-- Go `copyFiles`: a fresh map with every `File` deep-copied. -/
def copyFiles {α : Type} (cp : α → α) (files : List (String × α)) :
    List (String × α) :=
  files.map fun p => (p.1, cp p.2)

/-- Go `BurndownAnalysis.cleanup`: for each parent hash, decrement
`commitDeps[h]`; at zero, drop the hash from both `commitDeps` and the
snapshot store. -/
def cleanupStore {α : Type} (parents : List String)
    (st : (String → Int) × (String → Option α)) :
    (String → Int) × (String → Option α) :=
  parents.foldl
    (fun st h =>
      let deps' : String → Int := fun s => if s = h then st.1 h - 1 else st.1 s
      if deps' h = 0 then
        (deps', fun s => if s = h then none else st.2 s)
      else (deps', st.2))
    st

/-- Go `BurndownAnalysis.Consume`, reduced to its commit-plumbing: select
the processor by the number of parents, fail when a required parent
snapshot is missing or there are more than two parents, and only on success
store the processed snapshot under `commitHash` and run `cleanup`. The
result pairs the new `(analyser.files, commitDeps)` state with the returned
error (`none` for `nil`). -/
def consume {α : Type} (cp : α → α)
    (applier : List (String × α) → Except String (List (String × α)))
    (merger : List (String × α) → List (String × α) →
      Except String (List (String × α)))
    (store : String → Option (List (String × α))) (deps : String → Int)
    (commitHash : String) (parents : List String) :
    ((String → Option (List (String × α))) × (String → Int)) × Option String :=
  let finish : Except String (List (String × α)) →
      ((String → Option (List (String × α))) × (String → Int)) × Option String :=
    fun r =>
      match r with
      | .error e => ((store, deps), some e)
      | .ok files =>
        let store' := fun s => if s = commitHash then some files else store s
        let (deps', store'') := cleanupStore parents (deps, store')
        ((store'', deps'), none)
  match parents with
  | [] => finish (applier [])
  | [p1] =>
    match store p1 with
    | none =>
      ((store, deps),
        some ("commit with hash " ++ p1 ++ " wasn't processed (required by "
          ++ commitHash ++ ")"))
    | some files => finish (applier (copyFiles cp files))
  | [p1, p2] =>
    match store p1 with
    | none =>
      ((store, deps),
        some ("commit with hash " ++ p1 ++ " wasn't processed (required by "
          ++ commitHash ++ ")"))
    | some files1 =>
      match store p2 with
      | none =>
        ((store, deps),
          some ("commit with hash " ++ p2 ++ " wasn't processed (required by "
            ++ commitHash ++ ")"))
      | some files2 =>
        finish (merger (copyFiles cp files1) (copyFiles cp files2))
  | _ => ((store, deps), some "commit has more than 2 parents")

/-! ## Concrete inputs used by counterexamples and witnesses -/

/-- A diffs map with a single entry `diffs[0][1] = 5` (an introduction day
larger than the commit day, allowed by the type of the counter). -/
def c2diffs : Nat → Nat → Int := fun k i => if k = 0 ∧ i = 1 then 5 else 0

/-- The band formula exactly as the claim states it (modelled from the spec
sentence): the j-th band sums the deltas over all introduction days `i` in
`[j*g, (j+1)*g)` and all commit days `k` in `[0, d)`. -/
def specBand (diffs : Nat → Nat → Int) (g day j : Nat) : Int :=
  ∑ i ∈ Finset.Ico (j * g) ((j + 1) * g), ∑ k ∈ Finset.range day, diffs k i

/-- The counter state of claim C3: `newGlobalCounter` after the single
update `(commitDay 0, updateDay 0, delta +10)`; its `lastDay` is 0. -/
def c3Counter : GlobalCounter := newGlobalCounter.update 0 0 10

/-! ## rbtree.go

The red-black tree is embedded functionally. A node's parent pointer is
represented by the node's position: a `Path` of `Frame`s from the node to
the root. Pointers to tree nodes elsewhere (`minNode`, `maxNode`,
iterators) are represented by the key of the node they reference — keys
are unique in every tree the API builds, so a node is identified by its
key. The process-wide `negativeLimitNode` sentinel is an `Iter`
constructor. Functions that can dereference a nil pointer or fail a
`doAssert` return `Option`. -/

namespace RB

/-- rbtree.go `Item`. -/
structure Item where
  key : Int
  value : Int
deriving DecidableEq, Repr

/-- Node colors. Go uses the constants `red = 0`, `black = 1`. -/
inductive Color where
  | red
  | black
deriving DecidableEq, Repr

/-- rbtree.go `node`, with the parent pointer kept implicit (see `Frame`). -/
inductive Node where
  | nil
  | node (color : Color) (left : Node) (item : Item) (right : Node)
deriving DecidableEq, Repr

/-- Go `getColor`: nil nodes read as black. -/
def getColor : Node → Color
  | .nil => .black
  | .node c _ _ _ => c

/-- Go `n.color = black` on a known node; on nil this write never happens
in the places the model uses it. -/
def setBlack : Node → Node
  | .nil => .nil
  | .node _ l i r => .node .black l i r

/-- The in-order item sequence of a subtree. -/
def items : Node → List Item
  | .nil => []
  | .node _ l i r => items l ++ i :: items r

/-- The in-order key sequence of a subtree. -/
def keys (t : Node) : List Int := (items t).map Item.key

/-- One parent link: a `left` frame says the focus is the left child of a
parent with the given color and item whose right child is `sib`; a `right`
frame is the mirror image. -/
inductive Frame where
  | left (color : Color) (item : Item) (sib : Node)
  | right (color : Color) (sib : Node) (item : Item)
deriving DecidableEq, Repr

/-- The chain of parent pointers from a focus to the root (innermost
frame first). -/
abbrev Path := List Frame

/-- Rebuild the parent node from its frame and the focus subtree. -/
def Frame.fill : Frame → Node → Node
  | .left c i sib, t => .node c t i sib
  | .right c sib i, t => .node c sib i t

/-- Rebuild the parent node with its color overridden (a `parent.color = c`
write combined with `fill`). -/
def Frame.fillC : Frame → Color → Node → Node
  | .left _ i sib, c, t => .node c t i sib
  | .right _ sib i, c, t => .node c sib i t

/-- The parent's color stored in a frame. -/
def Frame.color : Frame → Color
  | .left c _ _ => c
  | .right c _ _ => c

/-- Go `n.sibling()`: the parent's other child. -/
def Frame.sib : Frame → Node
  | .left _ _ s => s
  | .right _ s _ => s

/-- Plug a subtree back along its path, rebuilding the whole tree. -/
def plug : Node → Path → Node
  | t, [] => t
  | t, f :: p => plug (f.fill t) p

/-- The key at the root of a subtree (never used on nil). -/
def rootKey : Node → Int
  | .nil => 0
  | .node _ _ i _ => i.key

/-- rbtree.go `RBTree`: root, cached min/max node pointers (`none` = nil),
and the node count. -/
structure RBTree where
  root : Node
  minNode : Option Int
  maxNode : Option Int
  count : Int
deriving DecidableEq, Repr

/-- The empty tree: `new(RBTree)`. -/
def emptyTree : RBTree := ⟨.nil, none, none, 0⟩

/-- Go `Iterator`: the `node` field is the `negativeLimitNode` sentinel,
nil (= `Limit`), or a pointer to a tree node (represented by its key). -/
inductive Iter where
  | negativeLimit
  | atKey (k : Int)
  | limit
deriving DecidableEq, Repr

/-! ### Insert -/

/-- The descent of Go `doInsert` (non-nil root): follow the sign of
`comp := item.Key - parent.item.Key` — a 64-bit subtraction, so it wraps;
`none` when `comp == 0` (the key is already present there), otherwise the
path at which the new leaf is attached (Go attaches at the first nil
child, which is where the descent ends). -/
def doInsertLoc (item : Item) : Node → Path → Option Path
  | .nil, path => some path
  | .node c l i r, path =>
    let comp := wrap64 (item.key - i.key)
    if comp = 0 then none
    else if comp < 0 then doInsertLoc item l (.left c i r :: path)
    else doInsertLoc item r (.right c l i :: path)

/-- The fix-up loop of Go `Insert`. The focus `n` starts as the freshly
painted red leaf. Case 1 paints the root black; case 2 stops under a black
parent; case 3 recolors and continues two levels up; cases 4/5 rotate and
stop — after a case-4 rotation the next loop iteration necessarily runs
case 5 (the new focus is a red left-left or right-right child of a red
parent with a black uncle), so that iteration is written out inline here.
A red parent without a grandparent makes Go dereference nil (`none`);
this cannot happen when the root is black. -/
def insertFixup : Node → Path → Option Node
  | n, [] => some (setBlack n)
  | n, pf :: rest =>
    if pf.color = .black then some (plug n (pf :: rest))
    else
      match rest with
      | [] => none
      | gf :: rest' =>
        match gf with
        | .left _ gi gsib =>
          -- the parent is a left child; the uncle is the grandparent's right
          if getColor gsib = .red then
            insertFixup (Node.node .red (pf.fillC .black n) gi (setBlack gsib))
              rest'
          else
            match pf with
            | .left _ pi psib =>
              some (plug (Node.node .black n pi (Node.node .red psib gi gsib))
                rest')
            | .right pc psib pi =>
              match n with
              | .nil => none
              | .node _ nl ni nr =>
                some (plug (Node.node .black (Node.node pc psib pi nl) ni
                  (Node.node .red nr gi gsib)) rest')
        | .right _ gsib gi =>
          if getColor gsib = .red then
            insertFixup (Node.node .red (setBlack gsib) gi (pf.fillC .black n))
              rest'
          else
            match pf with
            | .right _ psib pi =>
              some (plug (Node.node .black (Node.node .red gsib gi psib) pi n)
                rest')
            | .left pc pi psib =>
              match n with
              | .nil => none
              | .node _ nl ni nr =>
                some (plug (Node.node .black (Node.node .red gsib gi nl) ni
                  (Node.node pc nr pi psib)) rest')

/-- Go `RBTree.Insert` (the returned iterator is omitted; it points at the
inserted node). `doInsert` also updates `count` and, depending on the attach
side, runs `maybeSetMinNode` / `maybeSetMaxNode`; with a nil root it sets
both caches to the new node. -/
def RBTree.insert (t : RBTree) (item : Item) : Option (Bool × RBTree) :=
  match doInsertLoc item t.root [] with
  | none => some (false, t)
  | some path =>
    match insertFixup (Node.node .red .nil item .nil) path with
    | none => none
    | some root' =>
      let caches : Option Int × Option Int :=
        match path with
        | [] => (some item.key, some item.key)
        | .left _ _ _ :: _ =>
          -- attached as a left child: maybeSetMinNode
          let mn : Option Int :=
            match t.minNode with
            | none => some item.key
            | some mkey => if item.key < mkey then some item.key else some mkey
          let mx : Option Int :=
            match t.minNode with
            | none => some item.key
            | some _ => t.maxNode
          (mn, mx)
        | .right _ _ _ :: _ =>
          -- attached as a right child: maybeSetMaxNode
          let mn : Option Int :=
            match t.maxNode with
            | none => some item.key
            | some _ => t.minNode
          let mx : Option Int :=
            match t.maxNode with
            | none => some item.key
            | some mkey => if item.key > mkey then some item.key else some mkey
          (mn, mx)
      some (true,
        { root := root'
          minNode := caches.1
          maxNode := caches.2
          count := t.count + 1 })

/-! ### Iterator movement and search -/

/-- The parent-climbing loop of Go `node.doNext` when the right child is
nil: ascend while the focus is a right child; return the first parent
entered from its left child, or `none` past the root. -/
def climbNext : Node → Path → Option (Node × Path)
  | _, [] => none
  | t, .left c i sib :: rest => some (Node.node c t i sib, rest)
  | t, .right c sib i :: rest => climbNext (Node.node c sib i t) rest

/-- The mirror climb of Go `node.doPrev`; `none` is the
`negativeLimitNode` result. -/
def climbPrev : Node → Path → Option (Node × Path)
  | _, [] => none
  | t, .right c sib i :: rest => some (Node.node c sib i t, rest)
  | t, .left c i sib :: rest => climbPrev (Node.node c t i sib) rest

/-- Go `for m.left != nil { m = m.left }`: descend to the leftmost node. -/
def leftmostZ : Node → Path → Node × Path
  | .nil, path => (.nil, path)
  | .node c .nil i r, path => (.node c .nil i r, path)
  | .node c (.node lc ll li lr) i r, path =>
    leftmostZ (.node lc ll li lr) (.left c i r :: path)

/-- Go `maxPredecessor`'s loop: descend to the rightmost node. -/
def rightmostZ : Node → Path → Node × Path
  | .nil, path => (.nil, path)
  | .node c l i .nil, path => (.node c l i .nil, path)
  | .node c l i (.node rc rl ri rr), path =>
    rightmostZ (.node rc rl ri rr) (.right c l i :: path)

/-- Go `node.doNext` on a focused node: leftmost of the right subtree, or
the parent climb; `none` is Go's nil (no successor). -/
def doNextZ : Node → Path → Option (Node × Path)
  | .nil, _ => none
  | .node c l i (.node rc rl ri rr), path =>
    some (leftmostZ (.node rc rl ri rr) (.right c l i :: path))
  | .node c l i .nil, path => climbNext (.node c l i .nil) path

/-- Go `node.doPrev`: rightmost of the left subtree (`maxPredecessor`), or
the mirror climb; `none` is the `negativeLimitNode` result. -/
def doPrevZ : Node → Path → Option (Node × Path)
  | .nil, _ => none
  | .node c (.node lc ll li lr) i r, path =>
    some (rightmostZ (.node lc ll li lr) (.left c i r :: path))
  | .node c .nil i r, path => climbPrev (.node c .nil i r) path

/-- Go `RBTree.findGE` (the descent, focused): the answer node as a zipper
plus the exactness flag; `(none, false)` is Go's `(nil, false)`. The
comparison `comp := key - n.item.Key` is a 64-bit subtraction, so it
wraps; the final exactness test `key == succ.item.Key` is a direct
equality. When the descent falls off a right edge, the answer is the
focus's successor (`n.doNext()`, here the parent climb since the right
child is nil). -/
def findGEZ (key : Int) : Node → Path → Option (Node × Path) × Bool
  | .nil, _ => (none, false)
  | .node c l i r, path =>
    let comp := wrap64 (key - i.key)
    if comp = 0 then (some (.node c l i r, path), true)
    else if comp < 0 then
      match l with
      | .node lc ll li lr => findGEZ key (.node lc ll li lr) (.left c i r :: path)
      | .nil => (some (.node c l i r, path), false)
    else
      match r with
      | .node rc rl ri rr => findGEZ key (.node rc rl ri rr) (.right c l i :: path)
      | .nil =>
        match climbNext (.node c l i r) path with
        | none => (none, false)
        | some (succ, spath) =>
          (some (succ, spath), decide (key = rootKey succ))

/-- Go `RBTree.FindGE`: an iterator at the found node, or `Limit`. -/
def RBTree.findGE (t : RBTree) (k : Int) : Iter :=
  match findGEZ k t.root [] with
  | (none, _) => .limit
  | (some (n, _), _) => .atKey (rootKey n)

/-- Go `RBTree.FindLE`: exact hit, else the found node's predecessor, else
(when `findGE` returned nil) the cached max or `NegativeLimit`. -/
def RBTree.findLE (t : RBTree) (k : Int) : Iter :=
  match findGEZ k t.root [] with
  | (some (n, _), true) => .atKey (rootKey n)
  | (some (n, p), false) =>
    match doPrevZ n p with
    | some (m, _) => .atKey (rootKey m)
    | none => .negativeLimit
  | (none, _) =>
    match t.maxNode with
    | none => .negativeLimit
    | some mkey => .atKey mkey

/-- Go `RBTree.Min`: `Iterator{root, root.minNode}` — the `Limit` iterator
when the tree is empty. -/
def RBTree.minIter (t : RBTree) : Iter :=
  match t.minNode with
  | none => .limit
  | some k => .atKey k

/-- Go `RBTree.Max`: the cached max, or `NegativeLimit` when empty. -/
def RBTree.maxIter (t : RBTree) : Iter :=
  match t.maxNode with
  | none => .negativeLimit
  | some k => .atKey k

/-- Locate the node a pointer refers to, by its key (valid in every tree
with strictly ordered keys, where the descent by comparison reaches every
node). -/
def zipperToKey (k : Int) : Node → Path → Option (Node × Path)
  | .nil, _ => none
  | .node c l i r, path =>
    if k = i.key then some (.node c l i r, path)
    else if k < i.key then zipperToKey k l (.left c i r :: path)
    else zipperToKey k r (.right c l i :: path)

/-- Go `Iterator.Next`: forbidden on `Limit` (`none`); from
`NegativeLimit` it is `Iterator{root, root.minNode}`; otherwise
`node.doNext`, with nil meaning `Limit`. -/
def RBTree.iterNext (t : RBTree) : Iter → Option Iter
  | .limit => none
  | .negativeLimit =>
    some (match t.minNode with
      | none => .limit
      | some k => .atKey k)
  | .atKey k =>
    match zipperToKey k t.root [] with
    | none => none
    | some (n, p) =>
      some (match doNextZ n p with
        | none => .limit
        | some (m, _) => .atKey (rootKey m))

/-- Go `Iterator.Prev`: forbidden on `NegativeLimit`; on `Limit` it is the
cached max (or `NegativeLimit` when empty); otherwise `node.doPrev`. -/
def RBTree.iterPrev (t : RBTree) : Iter → Option Iter
  | .negativeLimit => none
  | .limit =>
    some (match t.maxNode with
      | none => .negativeLimit
      | some k => .atKey k)
  | .atKey k =>
    match zipperToKey k t.root [] with
    | none => none
    | some (n, p) =>
      some (match doPrevZ n p with
        | none => .negativeLimit
        | some (m, _) => .atKey (rootKey m))

/-! ### Delete

Go `doDelete` runs the six-case rebalance (`deleteCase1`) *before* the
splice `replaceNode(n, child)`. The rebalance never reads the doomed
node's subtree or color — only which side of the parent it is on, and the
parent's and sibling's colors — and its rotations move the doomed slot as
an opaque block, so plugging `child` in first and rebalancing at the
spliced position produces the same tree; the write `n.color =
getColor(child)` is dead. For a node with two children, `swapNodes` with
`maxPredecessor` leaves every position's color in place and both nodes
carrying the predecessor's item (`n.item = tmp.item`), and the node then
excised is the one at the predecessor's position: net effect, the
predecessor's item overwrites the doomed position. -/

/-- Go `deleteCase5` / the fall-through `case 6`: normalize the sibling so
its outer child is red, then rotate at the parent. `none` models the nil
dereferences in the conditions and the `doAssert` in case 6. -/
def deleteCase5 (n : Node) (f : Frame) (rest : Path) : Option Node :=
  match f with
  | .left pc pi s =>
    match s with
    | .nil => none
    | .node sc sl si sr =>
      -- case 5 proper: n is a left child, sibling black with a red left and
      -- black right child → repaint and rotateRight(sibling)
      let s' : Node :=
        if sc = .black ∧ getColor sl = .red ∧ getColor sr = .black then
          match sl with
          | .node _ sll sli slr => .node .black sll sli (.node .red slr si sr)
          | .nil => s   -- unreachable: getColor nil is black
        else s
      -- case 6: sibling takes the parent's color, parent goes black, the
      -- sibling's red right child goes black, rotateLeft(parent)
      match s' with
      | .node _ sl' si' (.node .red srl sri srr) =>
        some (plug (Node.node pc (Node.node .black n pi sl') si'
          (Node.node .black srl sri srr)) rest)
      | _ => none
  | .right pc s pi =>
    match s with
    | .nil => none
    | .node sc sl si sr =>
      let s' : Node :=
        if sc = .black ∧ getColor sr = .red ∧ getColor sl = .black then
          match sr with
          | .node _ srl sri srr => .node .black (.node .red sl si srl) sri srr
          | .nil => s
        else s
      match s' with
      | .node _ (.node .red sll sli slr) si' sr' =>
        some (plug (Node.node pc (Node.node .black sll sli slr) si'
          (Node.node .black sr' pi n)) rest)
      | _ => none

/-- Go `deleteCase1`, cases 4 and 5-6 (the tail of one loop iteration,
after the case-3 test failed or cannot apply). -/
def deleteCase456 (n : Node) (f : Frame) (rest : Path) : Option Node :=
  match f.sib with
  | .nil => none   -- the case conditions dereference the sibling
  | .node sc sl si sr =>
    if f.color = .red ∧ sc = .black ∧ getColor sl = .black ∧
        getColor sr = .black then
      -- case 4: repaint sibling red and parent black, break
      match f with
      | .left _ pi _ =>
        some (plug (Node.node .black n pi (Node.node .red sl si sr)) rest)
      | .right _ _ pi =>
        some (plug (Node.node .black (Node.node .red sl si sr) pi n) rest)
    else deleteCase5 n f rest

/-- Go `deleteCase1`: the bottom-up double-black fix-up loop. With no
parent, break. A red sibling (case 2) recolors and rotates at the parent,
deepening the focus; the parent is then red, so the case-3 test fails and
the same iteration continues with cases 4-6 on the new sibling. Otherwise,
with parent, sibling and both sibling children black (case 3), the sibling
is painted red and the loop continues at the parent. -/
def deleteCase1 : Node → Path → Option Node
  | n, [] => some n
  | n, f :: rest =>
    match f with
    | .left pc pi s =>
      match s with
      | .node .red sl si sr =>
        -- case 2: parent red, sibling black, rotateLeft(parent)
        deleteCase456 n (.left .red pi sl) (.left .black si sr :: rest)
      | _ =>
        match s with
        | .nil => none   -- the case-3 condition dereferences the sibling
        | .node sc sl si sr =>
          if pc = .black ∧ sc = .black ∧ getColor sl = .black ∧
              getColor sr = .black then
            deleteCase1 (Node.node pc n pi (Node.node .red sl si sr)) rest
          else deleteCase456 n (.left pc pi s) rest
    | .right pc s pi =>
      match s with
      | .node .red sl si sr =>
        deleteCase456 n (.right .red sr pi) (.right .black sl si :: rest)
      | _ =>
        match s with
        | .nil => none
        | .node sc sl si sr =>
          if pc = .black ∧ sc = .black ∧ getColor sl = .black ∧
              getColor sr = .black then
            deleteCase1 (Node.node pc (Node.node .red sl si sr) pi n) rest
          else deleteCase456 n (.right pc s pi) rest

/-- The splice of Go `doDelete` for a doomed node with at most one child:
`child` is the right child or else the left; when the doomed node was
black the rebalance runs first (see the section comment); finally, a
doomed root's non-nil child is painted black (`n.parent == nil && child !=
nil`; painting nil is a no-op, so the guard on `child` is folded into
`setBlack`). -/
def excise (c : Color) (l r : Node) (path : Path) : Option Node :=
  let child := match r with | .nil => l | .node _ _ _ _ => r
  let res := if c = .black then deleteCase1 child path else some (plug child path)
  match res with
  | none => none
  | some t =>
    match path with
    | [] => some (setBlack t)
    | _ :: _ => some t

/-- Go `doDelete` (tree surgery): a node with two children first receives
its predecessor's item, and the node at the predecessor's position
(rightmost of the left subtree, no right child) is the one excised. -/
def doDeleteZ : Node → Path → Option Node
  | .nil, _ => none
  | .node c l _ r, path =>
    match l, r with
    | .node lc ll li lr, .node _ _ _ _ =>
      match rightmostZ (.node lc ll li lr) [] with
      | (.node pc pl pitem .nil, relpath) =>
        excise pc pl .nil (relpath ++ Frame.left c pitem r :: path)
      | _ => none   -- unreachable: the rightmost node has a nil right child
    | _, _ => excise c l r path

/-- Go `recomputeMinNode`: descend left from the root. -/
def recomputeMin : Node → Option Int
  | .nil => none
  | .node _ .nil i _ => some i.key
  | .node _ (.node lc ll li lr) _ _ => recomputeMin (.node lc ll li lr)

/-- Go `recomputeMaxNode`: descend right from the root. -/
def recomputeMax : Node → Option Int
  | .nil => none
  | .node _ _ i .nil => some i.key
  | .node _ _ _ (.node rc rl ri rr) => recomputeMax (.node rc rl ri rr)

/-- Go `doDelete` at the node the pointer `k` designates, with count and
cache maintenance. The pointer comparisons `root.minNode == n` /
`root.maxNode == n` become key comparisons: distinct live nodes carry
distinct keys, and in the two-children case they are necessarily false
(a node with two children is neither the leftmost nor the rightmost node,
and after `swapNodes` the doomed object sits at the predecessor's interior
position), so no recomputation happens there — which is sound, because the
cached pointer follows the predecessor item wherever `swapNodes` moves it. -/
def RBTree.doDelete (t : RBTree) (k : Int) : Option RBTree :=
  match zipperToKey k t.root [] with
  | none => none
  | some (n, path) =>
    match doDeleteZ n path with
    | none => none
    | some root' =>
      let twoChildren : Bool :=
        match n with
        | .node _ (.node _ _ _ _) _ (.node _ _ _ _) => true
        | _ => false
      let count' := t.count - 1
      if count' = 0 then
        some { root := root', minNode := none, maxNode := none, count := count' }
      else
        some { root := root'
               minNode :=
                 if twoChildren = false ∧ t.minNode = some k then
                   recomputeMin root'
                 else t.minNode
               maxNode :=
                 if twoChildren = false ∧ t.maxNode = some k then
                   recomputeMax root'
                 else t.maxNode
               count := count' }

/-- Go `DeleteWithKey`: delete the node `FindGE` finds, if any (when `key`
is absent this deletes the smallest larger key and still returns true). -/
def RBTree.deleteWithKey (t : RBTree) (key : Int) : Option (Bool × RBTree) :=
  match findGEZ key t.root [] with
  | (some (n, _), _) =>
    match t.doDelete (rootKey n) with
    | none => none
    | some t' => some (true, t')
  | (none, _) => some (false, t)

/-- Go `DeleteWithIterator`: requires an iterator at a tree node (the
`doAssert` forbids `Limit` and `NegativeLimit`). -/
def RBTree.deleteWithIterator (t : RBTree) (it : Iter) : Option RBTree :=
  match it with
  | .atKey k => t.doDelete k
  | _ => none

/-- Go `RBTree.Len`. -/
def RBTree.len (t : RBTree) : Int := t.count

/-! ### The red-black invariants, as the spec states them -/

/-- No red node has a red child. -/
def noRedRedB : Node → Bool
  | .nil => true
  | .node c l _ r =>
    (match c with
     | .black => true
     | .red =>
       match getColor l, getColor r with
       | .black, .black => true
       | _, _ => false) &&
    noRedRedB l && noRedRedB r

/-- The number of black nodes on every root-to-nil path (counting the nil),
when it is the same on all of them; `none` otherwise. -/
def blackCount : Node → Option Nat
  | .nil => some 1
  | .node c l _ r =>
    match blackCount l, blackCount r with
    | some a, some b =>
      if a = b then
        some (a + match c with | .black => 1 | .red => 0)
      else none
    | _, _ => none

/-- The states an `RBTree` can be put in through the public mutating API:
any finite sequence of `Insert` (restricted to keys in `[-2^62, 2^62)`,
where the wrapped comparison `item.Key - parent.item.Key` cannot
overflow — outside that range an insert can break the search-tree order,
see `insert_wrap_counterexample`), `DeleteWithKey` (any key) and
`DeleteWithIterator` (at a valid iterator, i.e. one pointing at a present
node) starting from the empty tree. Each step requires the operation to
return (`some`): a panicking operation produces no state. -/
inductive Reachable : RBTree → Prop
  | empty : Reachable emptyTree
  | insert {t item b t'} : Reachable t → safeKey item.key →
      t.insert item = some (b, t') → Reachable t'
  | deleteWithKey {t k b t'} : Reachable t →
      t.deleteWithKey k = some (b, t') → Reachable t'
  | deleteWithIterator {t k t'} : Reachable t → k ∈ keys t.root →
      t.deleteWithIterator (.atKey k) = some t' → Reachable t'

/-! ### A concrete operation sequence (insert with fix-up, delete of a node
with two children, delete through an iterator) -/

def c1T1 : RBTree := ⟨.node .black .nil ⟨5, 50⟩ .nil, some 5, some 5, 1⟩

def c1T2 : RBTree :=
  ⟨.node .black (.node .red .nil ⟨3, 30⟩ .nil) ⟨5, 50⟩ .nil,
   some 3, some 5, 2⟩

def c1T3 : RBTree :=
  ⟨.node .black (.node .red .nil ⟨3, 30⟩ .nil) ⟨5, 50⟩
     (.node .red .nil ⟨8, 80⟩ .nil), some 3, some 8, 3⟩

def c1T4 : RBTree :=
  ⟨.node .black
     (.node .black (.node .red .nil ⟨1, 10⟩ .nil) ⟨3, 30⟩ .nil) ⟨5, 50⟩
     (.node .black .nil ⟨8, 80⟩ .nil), some 1, some 8, 4⟩

def c1T5 : RBTree :=
  ⟨.node .black (.node .red .nil ⟨1, 10⟩ .nil) ⟨3, 30⟩
     (.node .red .nil ⟨8, 80⟩ .nil), some 1, some 8, 3⟩

def c1T6 : RBTree :=
  ⟨.node .black (.node .red .nil ⟨1, 10⟩ .nil) ⟨3, 30⟩ .nil,
   some 1, some 3, 2⟩

/-! ### Trees exercising the wrapped 64-bit key comparison -/

/-- The tree after `Insert(2^62)` into the empty tree. -/
def c1ceA : RBTree :=
  ⟨.node .black .nil ⟨2 ^ 62, 0⟩ .nil, some (2 ^ 62), some (2 ^ 62), 1⟩

/-- The tree after a further `Insert(-2^62 - 1)`: the wrapped comparison
`(-2^62 - 1) - 2^62 = -2^63 - 1` overflows to `2^63 - 1 > 0`, so the new
key is attached as a *right* child and the in-order keys come out
unsorted. -/
def c1ceB : RBTree :=
  ⟨.node .black .nil ⟨2 ^ 62, 0⟩ (.node .red .nil ⟨-(2 ^ 62) - 1, 0⟩ .nil),
   some (2 ^ 62), some (2 ^ 62), 2⟩

/-- A well-formed single-node tree holding the key `2^62`, with correct
min/max caches and count. -/
def c4ceT : RBTree :=
  ⟨.node .black .nil ⟨2 ^ 62, 0⟩ .nil, some (2 ^ 62), some (2 ^ 62), 1⟩

/-! ### Copy, on address-labelled nodes

`Copy()` is about sharing, so for it the nodes carry their heap address:
every Go node is a distinct allocation. `ANode.copy` threads an
allocation counter; Go's allocator hands out fresh addresses, modelled by
starting the counter above every address of the source tree. -/

/-- A node labelled with its heap address. -/
inductive ANode where
  | nil
  | node (addr : Nat) (color : Color) (left : ANode) (item : Item)
      (right : ANode)
deriving DecidableEq, Repr

/-- Erase the addresses. -/
def ANode.strip : ANode → Node
  | .nil => .nil
  | .node _ c l i r => .node c (strip l) i (strip r)

/-- All addresses of a tree. -/
def ANode.addrs : ANode → List Nat
  | .nil => []
  | .node a _ l _ r => a :: addrs l ++ addrs r

/-- All `(address, item)` pairs of a tree. -/
def ANode.cells : ANode → List (Nat × Item)
  | .nil => []
  | .node a _ l i r => (a, i) :: cells l ++ cells r

/-- The size of a tree. -/
def ANode.size : ANode → Nat
  | .nil => 0
  | .node _ _ l _ r => size l + size r + 1

/-- The item of the node at an address. -/
def ANode.atAddr : ANode → Nat → Option Item
  | .nil, _ => none
  | .node a _ l i r, x =>
    if x = a then some i
    else
      match atAddr l x with
      | some j => some j
      | none => atAddr r x

/-- Go `node.copy`: `copyN := *n` allocates the copy, then the children
are copied recursively (left first, as the struct copy precedes the
recursive calls and the `left` field is handled before `right`). -/
def ANode.copy : ANode → Nat → ANode × Nat
  | .nil, c => (.nil, c)
  | .node _ col l i r, c =>
    let (l', c₁) := copy l (c + 1)
    let (r', c₂) := copy r c₁
    (.node c col l' i r', c₂)

/-- The queue contribution of a child pointer: Go pushes it only when it
is not nil. -/
def ANode.toQueue : ANode → List ANode
  | .nil => []
  | .node a c l i r => [.node a c l i r]

/-- The breadth-first search of Go `RBTree.Copy`: pop a node, record its
address when its item equals the min/max item (the later write wins, as in
Go), stop as soon as both are recorded, else enqueue the non-nil children. -/
def bfsLocate (minItem maxItem : Item) :
    List ANode → Option Nat → Option Nat → Option Nat × Option Nat
  | [], minFound, maxFound => (minFound, maxFound)
  | .nil :: rest, minFound, maxFound =>
    bfsLocate minItem maxItem rest minFound maxFound
  | .node a _ l i r :: rest, minFound, maxFound =>
    let minF := if i = minItem then some a else minFound
    let maxF := if i = maxItem then some a else maxFound
    if minF ≠ none ∧ maxF ≠ none then (minF, maxF)
    else bfsLocate minItem maxItem (rest ++ l.toQueue ++ r.toQueue) minF maxF
termination_by q _ _ => (q.map (fun n => 2 * ANode.size n + 1)).sum
decreasing_by
  · simp [ANode.size]
  · cases l <;> cases r <;>
      simp [ANode.toQueue, ANode.size, List.sum_append] <;> omega

/-- Go `RBTree.Copy` on the addressed tree: read the items of the cached
min and max nodes (nil dereference — `none` — when the tree is empty),
deep-copy the root, and locate the copied min/max by item equality with
the breadth-first search. Returns the copied root, the located caches,
the copied count and the new allocation counter. -/
def copyRBTree (root : ANode) (minA maxA : Option Nat) (count : Int)
    (alloc : Nat) :
    Option (ANode × (Option Nat × Option Nat) × Int × Nat) :=
  match minA, maxA with
  | some ma, some xa =>
    match root.atAddr ma, root.atAddr xa with
    | some minItem, some maxItem =>
      let (root', alloc') := root.copy alloc
      let (mn, mx) := bfsLocate minItem maxItem [root'] none none
      some (root', (mn, mx), count, alloc')
    | _, _ => none
  | _, _ => none

/-! ### Specification-layer definitions for the proofs -/

/-- The items contributed by a path to the left of its hole (outermost
contributions first). -/
def itemsL : Path → List Item
  | [] => []
  | .left _ _ _ :: p => itemsL p
  | .right _ sib i :: p => itemsL p ++ items sib ++ [i]

/-- The items contributed by a path to the right of its hole. -/
def itemsR : Path → List Item
  | [] => []
  | .left _ i sib :: p => i :: items sib ++ itemsR p
  | .right _ _ _ :: p => itemsR p

/-- The red-black balance predicate: `Bal t c h` says the subtree `t` is a
valid red-black subtree with root color `c` and `h` black nodes on every
path to a nil (the nil itself excluded). A red root forces black-rooted
children. -/
inductive Bal : Node → Color → Nat → Prop
  | nil : Bal .nil .black 0
  | red {l r : Node} {i : Item} {h : Nat} :
      Bal l .black h → Bal r .black h → Bal (.node .red l i r) .red h
  | black {l r : Node} {i : Item} {cl cr : Color} {h : Nat} :
      Bal l cl h → Bal r cr h → Bal (.node .black l i r) .black (h + 1)

/-- A context (path) that accepts a subtree with root color `c` and black
height `h` in its hole and then forms a valid red-black tree with a black
root: a red parent frame demands a black hole and itself sits in a context
accepting red; a black parent frame accepts any hole color. -/
inductive CtxOK : Path → Color → Nat → Prop
  | root (h : Nat) : CtxOK [] .black h
  | redL {p : Path} {i : Item} {sib : Node} {h : Nat} :
      Bal sib .black h → CtxOK p .red h →
      CtxOK (.left .red i sib :: p) .black h
  | redR {p : Path} {i : Item} {sib : Node} {h : Nat} :
      Bal sib .black h → CtxOK p .red h →
      CtxOK (.right .red sib i :: p) .black h
  | blackL {p : Path} {i : Item} {sib : Node} {cs : Color} {h : Nat}
      (c : Color) :
      Bal sib cs h → CtxOK p .black (h + 1) →
      CtxOK (.left .black i sib :: p) c h
  | blackR {p : Path} {i : Item} {sib : Node} {cs : Color} {h : Nat}
      (c : Color) :
      Bal sib cs h → CtxOK p .black (h + 1) →
      CtxOK (.right .black sib i :: p) c h

/-- The invariant of the `Insert` fix-up loop for the red focus: either the
context accepts a red hole, or the head frame is red (the red-red
violation) over a context accepting red, or the focus is at the root. -/
inductive InsCtx : Path → Nat → Prop
  | rootCase (h : Nat) : InsCtx [] h
  | ok {p : Path} {h : Nat} : CtxOK p .red h → InsCtx p h
  | violL {i : Item} {sib : Node} {rest : Path} {h : Nat} :
      Bal sib .black h → CtxOK rest .red h →
      InsCtx (.left .red i sib :: rest) h
  | violR {i : Item} {sib : Node} {rest : Path} {h : Nat} :
      Bal sib .black h → CtxOK rest .red h →
      InsCtx (.right .red sib i :: rest) h

/-- The internal invariant tying the proofs together: a balanced black
root, strictly increasing in-order keys, and a count equal to the number
of stored keys. -/
def Inv (t : RBTree) : Prop :=
  (∃ h, Bal t.root .black h) ∧
  (keys t.root).Pairwise (· < ·) ∧
  t.count = ((keys t.root).length : Int)

/-- The address of the leftmost node of an addressed tree. -/
def ANode.leftAddr : ANode → Option Nat
  | .nil => none
  | .node a _ .nil _ _ => some a
  | .node _ _ (.node b c l i r) _ _ => leftAddr (.node b c l i r)

/-- The address of the rightmost node of an addressed tree. -/
def ANode.rightAddr : ANode → Option Nat
  | .nil => none
  | .node a _ _ _ .nil => some a
  | .node _ _ _ _ (.node b c l i r) => rightAddr (.node b c l i r)

/-- One side (min or max) of the breadth-first-search invariant: either the
address is already found and no queued cell carries the item, or it is not
yet found and exactly one queued cell carries the item — the target one. -/
def SideInv (it : Item) (aT : Nat) (Q : List ANode) (f : Option Nat) : Prop :=
  (f = some aT ∧
    ((Q.map ANode.cells).flatten.filter (fun c => c.2 = it)) = []) ∨
  (f = none ∧
    ((Q.map ANode.cells).flatten.filter (fun c => c.2 = it)) = [(aT, it)])

end RB

/-! # Theorems -/

/-! ## wrap64: arithmetic facts -/

theorem wrap64_zero : wrap64 0 = 0 := by decide

theorem wrap64_wrap_add (a b : Int) :
    wrap64 (wrap64 a + b) = wrap64 (a + b) := by
  unfold wrap64
  omega

theorem wrap64_eq_self2 (n : Int) (h0 : -(2 ^ 63) ≤ n) (h1 : n < 2 ^ 63) :
    wrap64 n = n := by
  unfold wrap64
  omega

theorem wrap64_sub_safe {a b : Int} (ha : safeKey a) (hb : safeKey b) :
    wrap64 (a - b) = a - b := by
  obtain ⟨ha0, ha1⟩ := ha
  obtain ⟨hb0, hb1⟩ := hb
  exact wrap64_eq_self2 _ (by omega) (by omega)

/-! ## groupByDay: supporting lemmas -/

/-- Running the wrapped inner loop from a wrapped accumulator gives the
64-bit wrap of the exact accumulated sum. -/
theorem innerLoop_wrap (diffs : Nat → Nat → Int) (i : Nat) (g0 : Int) :
    ∀ day, innerLoop diffs i (wrap64 g0) day =
      wrap64 (g0 + ∑ k ∈ Finset.range day, diffs k i) := by
  intro day
  induction day with
  | zero => simp [innerLoop]
  | succ d ih =>
    show wrap64 (innerLoop diffs i (wrap64 g0) d + diffs d i) = _
    rw [ih, wrap64_wrap_add, Finset.sum_range_succ, add_assoc]

theorem ceil_div_eq (day g : Nat) (hg : 0 < g) :
    day / g + (if day % g ≠ 0 then 1 else 0) = (day + g - 1) / g := by
  rcases Nat.eq_zero_or_pos day with h0 | h0
  · subst h0
    simp [Nat.div_eq_of_lt, Nat.sub_lt hg]
  have hdm := Nat.div_add_mod day g
  by_cases h : day % g = 0
  · rw [if_neg (by simp [h])]
    have h1 : (day + g - 1) / g = day / g + (g - 1) / g := by
      rw [show day + g - 1 = g * (day / g) + (g - 1) from by omega,
        Nat.mul_add_div hg]
    rw [h1, Nat.div_eq_of_lt (show g - 1 < g from by omega)]
  · rw [if_pos h]
    have hmul : g * (day / g + 1) = g * (day / g) + g := by
      rw [Nat.mul_add, Nat.mul_one]
    have h1 : (day + g - 1) / g = day / g + 1 + (day % g - 1) / g := by
      rw [show day + g - 1 = g * (day / g + 1) + (day % g - 1) from by omega,
        Nat.mul_add_div hg]
    rw [h1, Nat.div_eq_of_lt
      (show day % g - 1 < g from by have := Nat.mod_lt day hg; omega)]

/-- The invariant of the outer `i` loop of `groupByDay` after `m`
iterations: the status row keeps its width, `group` holds the 64-bit wrap
of the running sum over the current incomplete band, and every band that
has been completed within `[0, m)` holds the wrap of its full band sum. -/
theorem gbd_loop_inv (diffs : Nat → Nat → Int) (g day w : Nat) (hg : 0 < g)
    (m : Nat) :
    (((List.range m).foldl (gbdStep diffs g day)
        (List.replicate w 0, 0)).1.length = w) ∧
    ((List.range m).foldl (gbdStep diffs g day)
        (List.replicate w 0, 0)).2 =
      wrap64 (∑ i ∈ Finset.Ico (g * (m / g)) m,
        ∑ k ∈ Finset.range day, diffs k i) ∧
    ∀ j, j < w →
      ((List.range m).foldl (gbdStep diffs g day)
          (List.replicate w 0, 0)).1.getD j 0 =
        if (j + 1) * g ≤ m then
          wrap64 (∑ i ∈ Finset.Ico (j * g) ((j + 1) * g),
            ∑ k ∈ Finset.range day, diffs k i)
        else 0 := by
  induction m with
  | zero =>
    refine ⟨by simp, by simp [wrap64_zero], ?_⟩
    intro j hj
    rw [if_neg (by
      have : 0 < (j + 1) * g := Nat.mul_pos (Nat.succ_pos j) hg
      omega)]
    simp [List.getD_eq_getElem?_getD, List.getElem?_replicate, hj]
  | succ m ih =>
    obtain ⟨ihlen, ihgrp, ihband⟩ := ih
    rw [List.range_succ, List.foldl_append, List.foldl_cons, List.foldl_nil]
    set st := (List.range m).foldl (gbdStep diffs g day)
      (List.replicate w 0, 0) with hst
    have hle : g * (m / g) ≤ m := by
      calc g * (m / g) = m / g * g := Nat.mul_comm _ _
        _ ≤ m := Nat.div_mul_le_self m g
    by_cases h : m % g = g - 1
    · -- band boundary: store the finished band, reset group
      rw [gbdStep, if_pos h]
      have hm1 : m + 1 = g * (m / g + 1) := by
        rw [Nat.mul_add, Nat.mul_one]
        have := Nat.div_add_mod m g
        omega
      have hdiv1 : (m + 1) / g = m / g + 1 := by
        rw [hm1, Nat.mul_div_cancel_left _ hg]
      refine ⟨by simpa using ihlen, ?_, ?_⟩
      · rw [hdiv1, ← hm1]
        simp [wrap64_zero]
      · intro j hj
        rw [List.getD_eq_getElem?_getD, List.getElem?_set]
        by_cases hjm : m / g = j
        · subst hjm
          have hlt : m / g < st.1.length := ihlen ▸ hj
          rw [if_pos rfl, if_pos hlt]
          have hcond : (m / g + 1) * g ≤ m + 1 :=
            le_of_eq ((Nat.mul_comm _ _).trans hm1.symm)
          rw [if_pos hcond]
          simp only [Option.getD_some]
          rw [ihgrp, innerLoop_wrap, ← Finset.sum_Ico_succ_top hle,
            show m / g * g = g * (m / g) from Nat.mul_comm _ _,
            show (m / g + 1) * g = m + 1 from (Nat.mul_comm _ _).trans hm1.symm]
        · rw [if_neg hjm]
          have := ihband j hj
          rw [List.getD_eq_getElem?_getD] at this
          rw [this]
          have hiff : (j + 1) * g ≤ m + 1 ↔ (j + 1) * g ≤ m := by
            constructor
            · intro hc
              rcases Nat.lt_or_ge ((j + 1) * g) (m + 1) with hlt | hge
              · omega
              · exfalso
                have : (j + 1) * g = m + 1 := by omega
                rw [hm1, Nat.mul_comm (g) (m / g + 1)] at this
                exact hjm (by
                  have := Nat.eq_of_mul_eq_mul_right hg this
                  omega)
            · omega
          by_cases hc : (j + 1) * g ≤ m
          · rw [if_pos (hiff.mpr hc), if_pos hc]
          · rw [if_neg (fun hh => hc (hiff.mp hh)), if_neg hc]
    · -- interior of a band: accumulate into group
      rw [gbdStep, if_neg h]
      have hmod : m % g < g - 1 := by
        have := Nat.mod_lt m hg
        omega
      have hdiv1 : (m + 1) / g = m / g := by
        have hdm := Nat.div_add_mod m g
        have h2 : m + 1 = g * (m / g) + (m % g + 1) := by omega
        rw [h2, Nat.mul_add_div hg,
          Nat.div_eq_of_lt (show m % g + 1 < g from by omega), Nat.add_zero]
      refine ⟨ihlen, ?_, ?_⟩
      · rw [hdiv1, ihgrp, innerLoop_wrap, Finset.sum_Ico_succ_top hle]
      · intro j hj
        have := ihband j hj
        rw [this]
        have hne : (j + 1) * g ≤ m ∨ ¬ (j + 1) * g ≤ m + 1 := by
          rcases Nat.lt_or_ge ((j + 1) * g) (m + 1) with hlt | hge
          · left; omega
          rcases Nat.lt_or_ge (m + 1) ((j + 1) * g) with hlt' | hge'
          · right; omega
          exfalso
          have heq : m = g - 1 + j * g := by
            have : (j + 1) * g = j * g + g := by ring
            omega
          rw [heq, Nat.add_mul_mod_self_right, Nat.mod_eq_of_lt (by omega)] at h
          exact h rfl
        by_cases hc : (j + 1) * g ≤ m
        · rw [if_pos hc, if_pos (show (j + 1) * g ≤ m + 1 from by omega)]
        · rw [if_neg hc, if_neg (show ¬ (j + 1) * g ≤ m + 1 from by
            rcases hne with h1 | h1 <;> omega)]

/-- Claim C2, amended: for every diffs map, granularity `g ≥ 1` and day `d`,
`groupByDay` returns a row of width `⌈d/g⌉` whose j-th band equals the
64-bit (int64) wrap of the sum, over introduction days `i` in
`[j*g, min((j+1)*g, d))` and commit days `k` in `[0, d)`, of `diffs[k][i]`.
(The loop reads no introduction day `≥ d`, so the final incomplete band is
truncated at `d`, and the `group` accumulator is an `int64`, so the band
total wraps modulo `2^64`; the claim as stated extends the band to
`(j+1)*g` and sums without wrapping.) -/
theorem groupByDay_row_bands (diffs : Nat → Nat → Int) (granularity day : Nat)
    (hg : 1 ≤ granularity) :
    (groupByDay diffs granularity day).length =
      (day + granularity - 1) / granularity ∧
    ∀ j, j < (groupByDay diffs granularity day).length →
      (groupByDay diffs granularity day).getD j 0 =
        wrap64 (∑ i ∈ Finset.Ico (j * granularity)
            (min ((j + 1) * granularity) day),
          ∑ k ∈ Finset.range day, diffs k i) := by
  have hg0 : 0 < granularity := hg
  have hgne : ¬ granularity = 0 := by omega
  have hdm := Nat.div_add_mod day granularity
  simp only [groupByDay, if_neg hgne]
  by_cases h : day % granularity = 0
  · simp only [h, ne_eq, not_true_eq_false, if_false, Nat.add_zero]
    obtain ⟨hlen, _, hband⟩ :=
      gbd_loop_inv diffs granularity day (day / granularity) hg0 day
    refine ⟨?_, ?_⟩
    · rw [hlen, ← ceil_div_eq day granularity hg0, if_neg (by simp [h])]
      omega
    · intro j hj
      rw [hlen] at hj
      have hjg : (j + 1) * granularity ≤ day := by
        have h1 : j + 1 ≤ day / granularity := hj
        calc (j + 1) * granularity ≤ day / granularity * granularity :=
              Nat.mul_le_mul_right _ h1
          _ = day := Nat.div_mul_cancel (Nat.dvd_of_mod_eq_zero h)
      rw [hband j hj, if_pos hjg, min_eq_left hjg]
  · simp only [h, ne_eq, not_false_eq_true, if_true]
    obtain ⟨hlen, hgrp, hband⟩ :=
      gbd_loop_inv diffs granularity day (day / granularity + 1) hg0 day
    set st := (List.range day).foldl (gbdStep diffs granularity day)
      (List.replicate (day / granularity + 1) 0, 0) with hst
    have hlen' : (st.1.set (st.1.length - 1) st.2).length = st.1.length := by
      simp
    refine ⟨?_, ?_⟩
    · rw [hlen', hlen, ← ceil_div_eq day granularity hg0, if_pos h]
    · intro j hj
      rw [hlen', hlen] at hj
      have hdaylt : day < (day / granularity + 1) * granularity := by
        have := Nat.mod_lt day hg0
        calc day = granularity * (day / granularity) + day % granularity :=
              hdm.symm
          _ < granularity * (day / granularity) + granularity := by omega
          _ = (day / granularity + 1) * granularity := by ring
      have hidx : st.1.length - 1 = day / granularity := by rw [hlen]; omega
      by_cases hj1 : j = day / granularity
      · subst hj1
        rw [List.getD_eq_getElem?_getD, hidx,
          List.getElem?_set_self (by rw [hlen]; omega)]
        simp only [Option.getD_some]
        rw [hgrp, min_eq_right (by omega)]
        have hgd : granularity * (day / granularity) =
            day / granularity * granularity := Nat.mul_comm _ _
        rw [hgd]
      · have hjlt : j < day / granularity := by omega
        have hjg : (j + 1) * granularity ≤ day := by
          calc (j + 1) * granularity ≤ day / granularity * granularity :=
                Nat.mul_le_mul_right _ hjlt
            _ ≤ day := Nat.div_mul_le_self day granularity
        rw [List.getD_eq_getElem?_getD, hidx,
          List.getElem?_set_ne (show day / granularity ≠ j from by omega),
          ← List.getD_eq_getElem?_getD, hband j (by omega), if_pos hjg,
          min_eq_left hjg]

/-- Claim C2 as stated fails: with `diffs[0][1] = 5`, granularity 2 and day 1
the code row is `[0]`, while the claimed band formula (introduction days over
the whole band `[0, 2)`) gives 5. -/
theorem groupByDay_band_counterexample :
    (groupByDay c2diffs 2 1).getD 0 0 ≠ specBand c2diffs 2 1 0 := by
  decide

/-- Witness for `groupByDay_row_bands` at diffs `c2diffs`, granularity 2,
day 3, band 0. -/
theorem groupByDay_row_bands_witness :
    (groupByDay c2diffs 2 3).getD 0 0 =
      wrap64 (∑ i ∈ Finset.Ico (0 * 2) (min ((0 + 1) * 2) 3),
        ∑ k ∈ Finset.range 3, c2diffs k i) :=
  (groupByDay_row_bands c2diffs 2 3 (by decide)).2 0 (by decide)

/-- Claim C3 as stated fails: the single day-0 commit produces one matrix
row, not two (the day loop emits nothing because `0/1 - 0/1 = 0`, and only
the final `lastDay + 1` snapshot is appended). -/
theorem c3_matrix_counterexample :
    GlobalCounter.matrix c3Counter 1 1 ≠ [[10], [10]] := by
  decide

/-- Claim C3, amended: the scenario yields `GlobalHistory = [[10]]`, a single
row `[10]`. -/
theorem c3_matrix_single_row : GlobalCounter.matrix c3Counter 1 1 = [[10]] := by
  decide

/-! ## packPersonWithDay / unpackPersonWithDay -/

theorem wrap64_eq_self (n : Int) (h0 : 0 ≤ n) (h1 : n < 2 ^ 63) :
    wrap64 n = n := by
  unfold wrap64
  omega

theorem int_lor_coe (m n : Nat) :
    Int.lor (m : Int) (n : Int) = ((m ||| n : Nat) : Int) := rfl

theorem int_land_coe (m n : Nat) :
    Int.land (m : Int) (n : Int) = ((m &&& n : Nat) : Int) := rfl

theorem int_shiftRight_coe (m : Nat) (s : Nat) :
    Int.shiftRight (m : Int) s = ((m >>> s : Nat) : Int) := rfl

/-- Claim C9, amended: the round trip holds for every day `d ≤ 16383` and
every author id `0 ≤ a < 2^49` (larger ids overflow the 64-bit shift; the
claim as stated allows every `a ≥ 0`). -/
theorem unpack_pack (a d : Int) (ha0 : 0 ≤ a) (ha : a < 2 ^ 49)
    (hd0 : 0 ≤ d) (hd : d ≤ 16383) :
    unpackPersonWithDay (packPersonWithDay a d) = (a, d) := by
  obtain ⟨na, rfl⟩ := Int.eq_ofNat_of_zero_le ha0
  obtain ⟨nd, rfl⟩ := Int.eq_ofNat_of_zero_le hd0
  have hna : na < 2 ^ 49 := by exact_mod_cast ha
  have hnd : nd < 2 ^ 14 := by
    have : nd ≤ 16383 := by exact_mod_cast hd
    omega
  have hshift : (na : Int) * 2 ^ 14 = ((na * 2 ^ 14 : Nat) : Int) := by
    push_cast
    ring
  have hw : wrap64 ((na : Int) * 2 ^ 14) = ((na * 2 ^ 14 : Nat) : Int) := by
    rw [hshift]
    refine wrap64_eq_self _ (by positivity) ?_
    have h1 : (na * 2 ^ 14 : Nat) < 2 ^ 49 * 2 ^ 14 :=
      (Nat.mul_lt_mul_right (show 0 < 2 ^ 14 by norm_num)).mpr hna
    have h2 : ((na * 2 ^ 14 : Nat) : Int) < ((2 ^ 49 * 2 ^ 14 : Nat) : Int) := by
      exact_mod_cast h1
    calc ((na * 2 ^ 14 : Nat) : Int) < ((2 ^ 49 * 2 ^ 14 : Nat) : Int) := h2
      _ = 2 ^ 63 := by norm_num
  have hor : nd ||| (na * 2 ^ 14) = 2 ^ 14 * na + nd := by
    rw [Nat.or_comm, Nat.mul_comm na (2 ^ 14), ← Nat.mul_add_lt_is_or hnd]
  rw [packPersonWithDay, hw, int_lor_coe, hor, unpackPersonWithDay,
    Prod.mk.injEq]
  constructor
  · rw [int_shiftRight_coe]
    have : (2 ^ 14 * na + nd) >>> 14 = na := by
      rw [Nat.shiftRight_eq_div_pow, Nat.mul_add_div (by norm_num),
        Nat.div_eq_of_lt hnd, Nat.add_zero]
    rw [this]
  · show Int.land _ ((16383 : Nat) : Int) = _
    rw [int_land_coe]
    have h1 : (16383 : Nat) = 2 ^ 14 - 1 := by norm_num
    rw [h1, Nat.and_pow_two_sub_one_eq_mod, Nat.mul_add_mod,
      Nat.mod_eq_of_lt hnd]

/-- Claim C9 as stated fails for large author ids: at `a = 2^49`, `d = 0`
the 64-bit shift overflows into the sign bit and the round trip returns
`(-2^49, 0)`. -/
theorem unpack_pack_counterexample :
    unpackPersonWithDay (packPersonWithDay (2 ^ 49) 0) ≠ ((2 : Int) ^ 49, 0) := by
  decide

/-- Witness for `unpack_pack` at `a = 3`, `d = 5`. -/
theorem unpack_pack_witness :
    unpackPersonWithDay (packPersonWithDay 3 5) = (3, 5) :=
  unpack_pack 3 5 (by decide) (by decide) (by decide) (by decide)

/-! ## changeMerger Insert arm -/

/-- Claim C7, amended: on a non-binary Insert, when `sideFiles[to]` holds a
`File` `f`, exactly that `f` is installed under `files[to]` (no new `File`
is created); when `sideFiles[to]` is absent, `processChange` returns the
error "file ... not found in side files", which aborts the commit — not a
non-fatal skip. -/
theorem mergerInsert_side_file {α : Type} (nameTo : String)
    (sideFiles files : String → Option α) :
    (∀ f, sideFiles nameTo = some f →
      mergerProcessInsert (Except.ok false) nameTo sideFiles files =
        (updateMap files nameTo f, none) ∧
      updateMap files nameTo f nameTo = some f) ∧
    (sideFiles nameTo = none →
      (mergerProcessInsert (Except.ok false) nameTo sideFiles files).2 =
        some ("file " ++ nameTo ++ " not found in side files")) := by
  constructor
  · intro f hf
    rw [mergerProcessInsert, hf]
    exact ⟨rfl, by simp [updateMap]⟩
  · intro hf
    rw [mergerProcessInsert, hf]

/-- Claim C7 as stated fails on the missing-side-file half: with empty side
files, the non-binary Insert of path "a" returns an error rather than
skipping, and `Process` aborts the commit with it. -/
theorem mergerInsert_missing_counterexample :
    (mergerProcessInsert (Except.ok false) "a"
        (fun _ => (none : Option Nat)) (fun _ => none)).2 ≠ none ∧
    (mergerProcess
        [fun files => mergerProcessInsert (Except.ok false) "a"
          (fun _ => (none : Option Nat)) files]
        (fun _ => none)).1 = none := by
  constructor
  · intro h
    simp [mergerProcessInsert] at h
  · rfl

/-- Witness for `mergerInsert_side_file`: a concrete side file 7 at "a" is
installed as-is. -/
theorem mergerInsert_side_file_witness :
    mergerProcessInsert (Except.ok false) "a"
        (fun s => if s = "a" then some 7 else none) (fun _ => (none : Option Nat)) =
      (updateMap (fun _ => none) "a" 7, none) ∧
    updateMap (fun _ => (none : Option Nat)) "a" 7 "a" = some 7 :=
  (mergerInsert_side_file "a" (fun s => if s = "a" then some 7 else none)
    (fun _ => none)).1 7 (by simp)

/-! ## BurndownAnalysis.Consume error paths -/

/-- Claim C8: when a required parent snapshot is missing from the store, or
the commit has more than two parents, `Consume` returns an error and the
snapshot store (and the `commitDeps` map) is returned unchanged: nothing is
added under the new hash, nothing is removed, and the success path only ever
hands `Process` the deep copies made by `copyFiles`. -/
theorem consume_error_preserves_store {α : Type} (cp : α → α)
    (applier : List (String × α) → Except String (List (String × α)))
    (merger : List (String × α) → List (String × α) →
      Except String (List (String × α)))
    (store : String → Option (List (String × α))) (deps : String → Int)
    (commitHash : String) (parents : List String)
    (h : 2 < parents.length ∨ ∃ p ∈ parents, store p = none) :
    ∃ e, consume cp applier merger store deps commitHash parents =
      ((store, deps), some e) := by
  match parents, h with
  | [], h =>
    rcases h with h | ⟨p, hp, _⟩
    · exact absurd h (by simp)
    · exact absurd hp (by simp)
  | [p1], h =>
    have hp1 : store p1 = none := by
      rcases h with h | ⟨p, hp, hnone⟩
      · exact absurd h (by simp)
      · simp at hp
        exact hp ▸ hnone
    exact ⟨_, by rw [consume, hp1]⟩
  | [p1, p2], h =>
    rcases h with h | ⟨p, hp, hnone⟩
    · exact absurd h (by simp)
    · simp at hp
      rcases hp with rfl | rfl
      · cases h1 : store p
        · exact ⟨_, by rw [consume, h1]⟩
        · exact absurd (h1 ▸ hnone) (by simp)
      · cases h1 : store p1
        · exact ⟨_, by rw [consume, h1]⟩
        · cases h2 : store p
          · exact ⟨_, by rw [consume, h1, h2]⟩
          · exact absurd (h2 ▸ hnone) (by simp)
  | p1 :: p2 :: p3 :: rest, _ =>
    exact ⟨_, rfl⟩

/-- Witness for `consume_error_preserves_store`: a single missing parent
"p" on an empty store. -/
theorem consume_error_preserves_store_witness :
    ∃ e, consume (fun n : Nat => n) (fun _ => Except.ok [])
        (fun _ _ => Except.ok []) (fun _ => none) (fun _ => 0) "c" ["p"] =
      (((fun _ => none), (fun _ => 0)), some e) :=
  consume_error_preserves_store (fun n : Nat => n) (fun _ => Except.ok [])
    (fun _ _ => Except.ok []) (fun _ => none) (fun _ => 0) "c" ["p"]
    (Or.inr ⟨"p", by simp, rfl⟩)

/-! ## Red-black tree: basic lemmas -/

namespace RB

theorem plug_append (s : Node) (p1 p2 : Path) :
    plug s (p1 ++ p2) = plug (plug s p1) p2 := by
  induction p1 generalizing s with
  | nil => rfl
  | cons f p ih => simp [plug, ih]

theorem items_fill (f : Frame) (s : Node) :
    items (f.fill s) =
      (match f with
       | .left _ i sib => items s ++ i :: items sib
       | .right _ sib i => items sib ++ i :: items s) := by
  cases f <;> simp [Frame.fill, items]

theorem items_plug (s : Node) (p : Path) :
    items (plug s p) = itemsL p ++ items s ++ itemsR p := by
  induction p generalizing s with
  | nil => simp [plug, itemsL, itemsR]
  | cons f p ih =>
    cases f with
    | left c i sib => simp [plug, Frame.fill, ih, itemsL, itemsR, items]
    | right c sib i => simp [plug, Frame.fill, ih, itemsL, itemsR, items]

theorem itemsL_append (p1 p2 : Path) :
    itemsL (p1 ++ p2) = itemsL p2 ++ itemsL p1 := by
  induction p1 with
  | nil => simp [itemsL]
  | cons f p ih => cases f <;> simp [itemsL, ih]

theorem itemsR_append (p1 p2 : Path) :
    itemsR (p1 ++ p2) = itemsR p1 ++ itemsR p2 := by
  induction p1 with
  | nil => simp [itemsR]
  | cons f p ih => cases f <;> simp [itemsR, ih]

theorem items_setBlack (t : Node) : items (setBlack t) = items t := by
  cases t <;> simp [setBlack, items]

theorem Bal.getColor_eq {t : Node} {c : Color} {h : Nat} (hb : Bal t c h) :
    getColor t = c := by
  cases hb <;> rfl

theorem Bal.setBlack_red {t : Node} {h : Nat} (hb : Bal t .red h) :
    Bal (setBlack t) .black (h + 1) := by
  cases hb with
  | red hl hr => exact .black hl hr

theorem Bal.setBlack_any {t : Node} {c : Color} {h : Nat} (hb : Bal t c h) :
    ∃ h', Bal (setBlack t) .black h' := by
  cases hb with
  | nil => exact ⟨0, .nil⟩
  | red hl hr => exact ⟨_, .black hl hr⟩
  | black hl hr => exact ⟨_, .black hl hr⟩

theorem CtxOK.mono {p : Path} {h : Nat} (hc : CtxOK p .red h) :
    CtxOK p .black h := by
  cases hc with
  | blackL c hs hp => exact .blackL _ hs hp
  | blackR c hs hp => exact .blackR _ hs hp

theorem CtxOK.plug_bal {p : Path} {c : Color} {h : Nat} {s : Node}
    (hc : CtxOK p c h) (hs : Bal s c h) : ∃ H, Bal (plug s p) .black H := by
  induction hc generalizing s with
  | root h => exact ⟨_, hs⟩
  | redL hsib hp ih => exact ih (.red hs hsib)
  | redR hsib hp ih => exact ih (.red hsib hs)
  | blackL c hsib hp ih => exact ih (.black hs hsib)
  | blackR c hsib hp ih => exact ih (.black hsib hs)

theorem InsCtx.of_black {p : Path} {h : Nat} (hc : CtxOK p .black h) :
    InsCtx p h := by
  cases hc with
  | root => exact .rootCase _
  | redL hsib hp => exact .violL hsib hp
  | redR hsib hp => exact .violR hsib hp
  | blackL c hsib hp => exact .ok (.blackL _ hsib hp)
  | blackR c hsib hp => exact .ok (.blackR _ hsib hp)

theorem bal_decomp : ∀ (p : Path) (s : Node) (H : Nat),
    Bal (plug s p) .black H → ∃ c h, Bal s c h ∧ CtxOK p c h := by
  intro p
  induction p with
  | nil => exact fun s H hb => ⟨.black, H, hb, .root H⟩
  | cons f rest ih =>
    intro s H hb
    obtain ⟨c', h', hfill, hctx⟩ := ih (f.fill s) H hb
    cases f with
    | left fc fi fsib =>
      cases hfill with
      | red hl hr =>
        exact ⟨.black, _, hl, .redL hr hctx⟩
      | black hl hr =>
        exact ⟨_, _, hl, .blackL _ hr hctx⟩
    | right fc fsib fi =>
      cases hfill with
      | red hl hr =>
        exact ⟨.black, _, hr, .redR hl hctx⟩
      | black hl hr =>
        exact ⟨_, _, hr, .blackR _ hl hctx⟩

/-! ## Insert preserves the red-black invariants -/

theorem insertFixup_ok :
    ∀ (n : Node) (p : Path) {h : Nat} {r : Node},
      Bal n .red h → InsCtx p h → insertFixup n p = some r →
      (∃ H, Bal r .black H) ∧ items r = itemsL p ++ items n ++ itemsR p := by
  intro n p
  induction n, p using insertFixup.induct with
  | case1 t =>
    intro h r hb hctx heq
    simp only [insertFixup, Option.some.injEq] at heq
    subst heq
    exact ⟨⟨h + 1, hb.setBlack_red⟩, by simp [items_setBlack, itemsL, itemsR]⟩
  | case2 t f p hf =>
    intro h r hb hctx heq
    have heq : plug t (f :: p) = r := by
      cases p with
      | nil =>
        simp only [insertFixup, if_pos hf, Option.some.injEq] at heq
        exact heq
      | cons gf rest' =>
        simp only [insertFixup, if_pos hf, Option.some.injEq] at heq
        exact heq
    subst heq
    cases hctx with
    | ok hc => exact ⟨hc.plug_bal hb, items_plug _ _⟩
    | violL hsib hrest => simp [Frame.color] at hf
    | violR hsib hrest => simp [Frame.color] at hf
  | case3 t f hnb =>
    intro h r hb hctx heq
    cases hctx with
    | ok hc =>
      cases hc with
      | blackL c hsib hp => exact absurd rfl hnb
      | blackR c hsib hp => exact absurd rfl hnb
    | violL hsib hrest => cases hrest
    | violR hsib hrest => cases hrest
  | case4 t f hnb rest' gc gi gsib hred ih =>
    intro h r hb hctx heq
    simp only [insertFixup, if_neg hnb, if_pos hred] at heq
    cases hctx with
    | ok hc =>
      cases hc with
      | blackL c hsib hp => exact absurd rfl hnb
      | blackR c hsib hp => exact absurd rfl hnb
    | violL hsib hrest =>
      cases hrest with
      | blackL c hgs hrest' =>
        have hgsr : Bal gsib .red h := by
          have := hgs.getColor_eq
          rw [hred] at this
          subst this
          exact hgs
        obtain ⟨hbal, hitems⟩ :=
          ih (by exact .red (.black hb hsib) hgsr.setBlack_red)
            (InsCtx.of_black hrest') heq
        refine ⟨hbal, ?_⟩
        rw [hitems]
        simp [Frame.fillC, items, items_setBlack, itemsL, itemsR]
    | violR hsib hrest =>
      cases hrest with
      | blackL c hgs hrest' =>
        have hgsr : Bal gsib .red h := by
          have := hgs.getColor_eq
          rw [hred] at this
          subst this
          exact hgs
        obtain ⟨hbal, hitems⟩ :=
          ih (by exact .red (.black hsib hb) hgsr.setBlack_red)
            (InsCtx.of_black hrest') heq
        refine ⟨hbal, ?_⟩
        rw [hitems]
        simp [Frame.fillC, items, items_setBlack, itemsL, itemsR]
  | case5 t rest' gc gi gsib hnotred pc pi psib hnb =>
    intro h r hb hctx heq
    simp only [insertFixup, if_neg hnb, if_neg hnotred, Option.some.injEq]
      at heq
    subst heq
    cases hctx with
    | ok hc =>
      cases hc with
      | blackL c hsib hp => exact absurd rfl hnb
    | violL hsib hrest =>
      cases hrest with
      | blackL c hgs hrest' =>
        have hgsb : Bal gsib .black h := by
          have hcol := hgs.getColor_eq
          cases hcq : getColor gsib with
          | red => exact absurd hcq hnotred
          | black => rw [hcq] at hcol; subst hcol; exact hgs
        have htop : Bal (Node.node .black t pi
            (Node.node .red psib gi gsib)) .black (h + 1) :=
          .black hb (.red hsib hgsb)
        refine ⟨hrest'.plug_bal htop, ?_⟩
        rw [items_plug]
        simp [items, itemsL, itemsR]
  | case6 rest' gc gi gsib hnotred pc psib pi hnb =>
    intro h r hb hctx heq
    cases hb
  | case7 rest' gc gi gsib hnotred pc psib pi nc nl ni nr hnb =>
    intro h r hb hctx heq
    simp only [insertFixup, if_neg hnb, if_neg hnotred, Option.some.injEq]
      at heq
    subst heq
    cases hctx with
    | ok hc =>
      cases hc with
      | blackR c hsib hp => exact absurd rfl hnb
    | violR hsib hrest =>
      cases hrest with
      | blackL c hgs hrest' =>
        have hgsb : Bal gsib .black h := by
          have hcol := hgs.getColor_eq
          cases hcq : getColor gsib with
          | red => exact absurd hcq hnotred
          | black => rw [hcq] at hcol; subst hcol; exact hgs
        cases hb with
        | red hnl hnr =>
          have htop : Bal (Node.node .black (Node.node .red psib pi nl) ni
              (Node.node .red nr gi gsib)) .black (h + 1) :=
            .black (.red hsib hnl) (.red hnr hgsb)
          refine ⟨hrest'.plug_bal htop, ?_⟩
          rw [items_plug]
          simp [items, itemsL, itemsR]
  | case8 t f hnb rest' gc gsib gi hred ih =>
    intro h r hb hctx heq
    simp only [insertFixup, if_neg hnb, if_pos hred] at heq
    cases hctx with
    | ok hc =>
      cases hc with
      | blackL c hsib hp => exact absurd rfl hnb
      | blackR c hsib hp => exact absurd rfl hnb
    | violL hsib hrest =>
      cases hrest with
      | blackR c hgs hrest' =>
        have hgsr : Bal gsib .red h := by
          have := hgs.getColor_eq
          rw [hred] at this
          subst this
          exact hgs
        obtain ⟨hbal, hitems⟩ :=
          ih (by exact .red hgsr.setBlack_red (.black hb hsib))
            (InsCtx.of_black hrest') heq
        refine ⟨hbal, ?_⟩
        rw [hitems]
        simp [Frame.fillC, items, items_setBlack, itemsL, itemsR]
    | violR hsib hrest =>
      cases hrest with
      | blackR c hgs hrest' =>
        have hgsr : Bal gsib .red h := by
          have := hgs.getColor_eq
          rw [hred] at this
          subst this
          exact hgs
        obtain ⟨hbal, hitems⟩ :=
          ih (by exact .red hgsr.setBlack_red (.black hsib hb))
            (InsCtx.of_black hrest') heq
        refine ⟨hbal, ?_⟩
        rw [hitems]
        simp [Frame.fillC, items, items_setBlack, itemsL, itemsR]
  | case9 t rest' gc gsib gi hnotred pc psib pi hnb =>
    intro h r hb hctx heq
    simp only [insertFixup, if_neg hnb, if_neg hnotred, Option.some.injEq]
      at heq
    subst heq
    cases hctx with
    | ok hc =>
      cases hc with
      | blackR c hsib hp => exact absurd rfl hnb
    | violR hsib hrest =>
      cases hrest with
      | blackR c hgs hrest' =>
        have hgsb : Bal gsib .black h := by
          have hcol := hgs.getColor_eq
          cases hcq : getColor gsib with
          | red => exact absurd hcq hnotred
          | black => rw [hcq] at hcol; subst hcol; exact hgs
        have htop : Bal (Node.node .black (Node.node .red gsib gi psib) pi t)
            .black (h + 1) :=
          .black (.red hgsb hsib) hb
        refine ⟨hrest'.plug_bal htop, ?_⟩
        rw [items_plug]
        simp [items, itemsL, itemsR]
  | case10 rest' gc gsib gi hnotred pc pi psib hnb =>
    intro h r hb hctx heq
    cases hb
  | case11 rest' gc gsib gi hnotred pc pi psib nc nl ni nr hnb =>
    intro h r hb hctx heq
    simp only [insertFixup, if_neg hnb, if_neg hnotred, Option.some.injEq]
      at heq
    subst heq
    cases hctx with
    | ok hc =>
      cases hc with
      | blackL c hsib hp => exact absurd rfl hnb
    | violL hsib hrest =>
      cases hrest with
      | blackR c hgs hrest' =>
        have hgsb : Bal gsib .black h := by
          have hcol := hgs.getColor_eq
          cases hcq : getColor gsib with
          | red => exact absurd hcq hnotred
          | black => rw [hcq] at hcol; subst hcol; exact hgs
        cases hb with
        | red hnl hnr =>
          have htop : Bal (Node.node .black (Node.node .red gsib gi nl) ni
              (Node.node .red nr pi psib)) .black (h + 1) :=
            .black (.red hgsb hnl) (.red hnr hsib)
          refine ⟨hrest'.plug_bal htop, ?_⟩
          rw [items_plug]
          simp [items, itemsL, itemsR]

theorem doInsertLoc_plug (item : Item) :
    ∀ (n : Node) (p0 path : Path), doInsertLoc item n p0 = some path →
      plug Node.nil path = plug n p0 := by
  intro n
  induction n with
  | nil =>
    intro p0 path heq
    simp only [doInsertLoc, Option.some.injEq] at heq
    rw [heq]
  | node c l i r ihl ihr =>
    intro p0 path heq
    simp only [doInsertLoc] at heq
    split at heq
    · exact absurd heq (by simp)
    · split at heq
      · exact ihl _ _ heq
      · exact ihr _ _ heq

theorem doInsertLoc_items (item : Item) (n : Node) (p0 path : Path)
    (heq : doInsertLoc item n p0 = some path) :
    itemsL path ++ itemsR path = itemsL p0 ++ items n ++ itemsR p0 := by
  have h1 := items_plug Node.nil path
  rw [doInsertLoc_plug item n p0 path heq, items_plug] at h1
  simpa [items] using h1.symm

/-- A per-item bound on a node splits into bounds on the left subtree, the
root item and the right subtree. -/
theorem safe_items_split {c : Color} {l : Node} {i : Item} {r : Node}
    (h : ∀ j ∈ items (Node.node c l i r), safeKey j.key) :
    (∀ j ∈ items l, safeKey j.key) ∧ safeKey i.key ∧
      ∀ j ∈ items r, safeKey j.key := by
  refine ⟨fun j hj => h j ?_, h i ?_, fun j hj => h j ?_⟩ <;>
    simp only [items, List.mem_append, List.mem_cons] <;> tauto

theorem doInsertLoc_bounds (item : Item) (hsk : safeKey item.key) :
    ∀ (n : Node) (p0 path : Path), doInsertLoc item n p0 = some path →
      (∀ j ∈ items n, safeKey j.key) →
      (items (plug n p0)).Pairwise (fun a b => a.key < b.key) →
      (∀ j ∈ itemsL p0, j.key < item.key) →
      (∀ j ∈ itemsR p0, item.key < j.key) →
      (∀ j ∈ itemsL path, j.key < item.key) ∧
      (∀ j ∈ itemsR path, item.key < j.key) := by
  intro n
  induction n with
  | nil =>
    intro p0 path heq hsafe hsort hL hR
    simp only [doInsertLoc, Option.some.injEq] at heq
    subst heq
    exact ⟨hL, hR⟩
  | node c l i r ihl ihr =>
    intro p0 path heq hsafe hsort hL hR
    obtain ⟨hsafeL, hsafeI, hsafeR⟩ := safe_items_split hsafe
    have hw : wrap64 (item.key - i.key) = item.key - i.key :=
      wrap64_sub_safe hsk hsafeI
    have hitems : items (plug (Node.node c l i r) p0) =
        itemsL p0 ++ (items l ++ i :: items r) ++ itemsR p0 := by
      rw [items_plug]; simp [items]
    simp only [doInsertLoc] at heq
    rw [hw] at heq
    split at heq
    · exact absurd heq (by simp)
    next hne =>
      split at heq
      next hlt =>
        -- item.key < i.key: descend left
        have hik : item.key < i.key := by omega
        have hmid : (i :: items r).Pairwise
            (fun a b : Item => a.key < b.key) := by
          refine List.Pairwise.sublist ?_ (hitems ▸ hsort)
          exact ((List.sublist_append_right (items l) (i :: items r)).trans
            (List.sublist_append_right (itemsL p0) _)).trans
            (List.sublist_append_left _ _)
        refine ihl _ _ heq hsafeL
          (by rwa [show plug l (Frame.left c i r :: p0) =
            plug (Node.node c l i r) p0 from rfl]) (by simpa [itemsL] using hL)
          ?_
        intro j hj
        simp only [itemsR, List.mem_cons, List.mem_append] at hj
        rcases hj with (rfl | hj) | hj
        · exact hik
        · have := (List.pairwise_cons.mp hmid).1 j hj
          omega
        · exact hR j hj
      next hge =>
        -- i.key < item.key: descend right
        have hik : i.key < item.key := by omega
        have hmid : (items l ++ [i]).Pairwise
            (fun a b : Item => a.key < b.key) := by
          refine List.Pairwise.sublist ?_ (hitems ▸ hsort)
          have h1 : List.Sublist (items l ++ [i]) (items l ++ i :: items r) :=
            (List.append_sublist_append_left (items l)).mpr
              ((List.nil_sublist (items r)).cons₂ i)
          exact (h1.trans (List.sublist_append_right (itemsL p0) _)).trans
            (List.sublist_append_left _ _)
        refine ihr _ _ heq hsafeR
          (by rwa [show plug r (Frame.right c l i :: p0) =
            plug (Node.node c l i r) p0 from rfl]) ?_
          (by simpa [itemsR] using hR)
        intro j hj
        simp only [itemsL, List.mem_append, List.mem_singleton] at hj
        rcases hj with (hj | hj) | rfl
        · exact hL j hj
        · have hpair := List.pairwise_append.mp hmid
          have := hpair.2.2 j hj i (by simp)
          omega
        · exact hik

/-- Go `Insert` with an in-range key preserves the internal invariant on a
tree with in-range keys, and every item of the result is the inserted item
or an item of the input tree. -/
theorem insert_inv {t : RBTree} {item : Item} {b : Bool} {t' : RBTree}
    (hinv : Inv t) (hsk : safeKey item.key)
    (hsafe : ∀ j ∈ items t.root, safeKey j.key)
    (heq : t.insert item = some (b, t')) :
    Inv t' ∧ ∀ j ∈ items t'.root, j = item ∨ j ∈ items t.root := by
  obtain ⟨⟨H, hbal⟩, hsort, hcount⟩ := hinv
  have hsortI : (items t.root).Pairwise (fun a b : Item => a.key < b.key) := by
    rw [keys, List.pairwise_map] at hsort
    exact hsort
  cases hloc : doInsertLoc item t.root [] with
  | none =>
    simp only [RBTree.insert, hloc, Option.some.injEq, Prod.mk.injEq] at heq
    rw [← heq.2]
    exact ⟨⟨⟨H, hbal⟩, hsort, hcount⟩, fun j hj => Or.inr hj⟩
  | some path =>
    simp only [RBTree.insert, hloc] at heq
    cases hfix : insertFixup (Node.node .red .nil item .nil) path with
    | none => simp [hfix] at heq
    | some root' =>
      simp only [hfix, Option.some.injEq, Prod.mk.injEq] at heq
      have hplug : plug Node.nil path = t.root :=
        doInsertLoc_plug item t.root [] path hloc
      obtain ⟨c0, h0, hbal0, hctx⟩ :=
        bal_decomp path Node.nil H (by rw [hplug]; exact hbal)
      have hc0 : c0 = .black := by cases hbal0; rfl
      have hh0 : h0 = 0 := by cases hbal0; rfl
      subst hc0; subst hh0
      obtain ⟨⟨H', hbal'⟩, hitems'⟩ :=
        insertFixup_ok _ path (.red .nil .nil) (InsCtx.of_black hctx) hfix
      have hLR : itemsL path ++ itemsR path = items t.root := by
        have := doInsertLoc_items item t.root [] path hloc
        simpa [itemsL, itemsR] using this
      obtain ⟨hbL, hbR⟩ := doInsertLoc_bounds item hsk t.root [] path hloc
        hsafe (by rwa [show plug t.root [] = t.root from rfl])
        (by simp [itemsL]) (by simp [itemsR])
      have hitems2 : items root' = itemsL path ++ item :: itemsR path := by
        rw [hitems']
        simp [items]
      have hsorted' : (items root').Pairwise (fun a b : Item => a.key < b.key) := by
        rw [hitems2]
        have hold : (itemsL path ++ itemsR path).Pairwise
            (fun a b : Item => a.key < b.key) := by rw [hLR]; exact hsortI
        have hparts := List.pairwise_append.mp hold
        refine List.pairwise_append.mpr ⟨hparts.1, ?_, ?_⟩
        · refine List.pairwise_cons.mpr ⟨fun j hj => hbR j hj, hparts.2.1⟩
        · intro a ha b hb
          rcases List.mem_cons.mp hb with rfl | hb
          · exact hbL a ha
          · exact hparts.2.2 a ha b hb
      rw [← heq.2]
      refine ⟨⟨⟨H', hbal'⟩, ?_, ?_⟩, ?_⟩
      · rw [keys, List.pairwise_map]
        exact hsorted'
      · have hlen : (items root').length =
            (items t.root).length + 1 := by
          rw [hitems2, ← hLR]
          simp
          omega
        simp only [keys, List.length_map] at hcount ⊢
        rw [hlen]
        push_cast
        omega
      · intro j hj
        have hj2 : j ∈ items root' := hj
        rw [hitems2] at hj2
        rcases List.mem_append.mp hj2 with hj3 | hj3
        · refine Or.inr ?_
          rw [← hLR]
          exact List.mem_append_left _ hj3
        · rcases List.mem_cons.mp hj3 with rfl | hj4
          · exact Or.inl rfl
          · refine Or.inr ?_
            rw [← hLR]
            exact List.mem_append_right _ hj4

/-! ## Delete preserves the red-black invariants -/

theorem Bal.item_swap {c : Color} {l : Node} {i : Item} {r : Node}
    {c0 : Color} {h : Nat} (hb : Bal (.node c l i r) c0 h) (j : Item) :
    Bal (.node c l j r) c0 h := by
  cases hb with
  | red hl hr => exact .red hl hr
  | black hl hr => exact .black hl hr

theorem getColor_nil : getColor .nil = .black := rfl

theorem getColor_node (c : Color) (l : Node) (i : Item) (r : Node) :
    getColor (.node c l i r) = c := rfl

theorem deleteCase5_ok {n : Node} {f : Frame} {rest : Path} {cn : Color}
    {h : Nat} {r : Node} (hb : Bal n cn h)
    (hctx : CtxOK (f :: rest) .black (h + 1))
    (heq : deleteCase5 n f rest = some r) :
    items r = itemsL (f :: rest) ++ items n ++ itemsR (f :: rest) ∧
    ∃ H, Bal r .black H := by
  cases f with
  | left pc pi s =>
    cases hctx with
    | redL hsib hrest =>
      cases hsib with
      | black hsl hsr =>
        rename_i sl sr si cl cr
        cases cr with
        | red =>
          cases hsr with
          | red hsrl hsrr =>
            rename_i srl srr sri
            simp [deleteCase5, getColor_nil, getColor_node] at heq
            subst heq
            refine ⟨by simp [items_plug, items, itemsL, itemsR], ?_⟩
            exact hrest.plug_bal (.red (.black hb hsl) (.black hsrl hsrr))
        | black =>
          cases cl with
          | red =>
            cases hsl with
            | red hsll hslr =>
              rename_i sll slr sli
              simp [deleteCase5, getColor_nil, getColor_node, hsr.getColor_eq] at heq
              subst heq
              refine ⟨by simp [items_plug, items, itemsL, itemsR], ?_⟩
              exact hrest.plug_bal (.red (.black hb hsll) (.black hslr hsr))
          | black =>
            cases hsr with
            | nil => simp [deleteCase5, getColor_nil, getColor_node, hsl.getColor_eq] at heq
            | black h1 h2 =>
              simp [deleteCase5, getColor_nil, getColor_node, hsl.getColor_eq] at heq
    | blackL c0 hsib hrest =>
      cases hsib with
      | red hsl hsr =>
        cases hsr with
        | black h1 h2 => simp [deleteCase5, getColor_nil, getColor_node] at heq
      | black hsl hsr =>
        rename_i sl sr si cl cr
        cases cr with
        | red =>
          cases hsr with
          | red hsrl hsrr =>
            rename_i srl srr sri
            simp [deleteCase5, getColor_nil, getColor_node] at heq
            subst heq
            refine ⟨by simp [items_plug, items, itemsL, itemsR], ?_⟩
            exact hrest.plug_bal (.black (.black hb hsl) (.black hsrl hsrr))
        | black =>
          cases cl with
          | red =>
            cases hsl with
            | red hsll hslr =>
              rename_i sll slr sli
              simp [deleteCase5, getColor_nil, getColor_node, hsr.getColor_eq] at heq
              subst heq
              refine ⟨by simp [items_plug, items, itemsL, itemsR], ?_⟩
              exact hrest.plug_bal (.black (.black hb hsll) (.black hslr hsr))
          | black =>
            cases hsr with
            | nil => simp [deleteCase5, getColor_nil, getColor_node, hsl.getColor_eq] at heq
            | black h1 h2 =>
              simp [deleteCase5, getColor_nil, getColor_node, hsl.getColor_eq] at heq
  | right pc s pi =>
    cases hctx with
    | redR hsib hrest =>
      cases hsib with
      | black hsl hsr =>
        rename_i sl sr si cl cr
        cases cl with
        | red =>
          cases hsl with
          | red hsll hslr =>
            rename_i sll slr sli
            simp [deleteCase5, getColor_nil, getColor_node] at heq
            subst heq
            refine ⟨by simp [items_plug, items, itemsL, itemsR], ?_⟩
            exact hrest.plug_bal (.red (.black hsll hslr) (.black hsr hb))
        | black =>
          cases cr with
          | red =>
            cases hsr with
            | red hsrl hsrr =>
              rename_i srl srr sri
              simp [deleteCase5, getColor_nil, getColor_node, hsl.getColor_eq] at heq
              subst heq
              refine ⟨by simp [items_plug, items, itemsL, itemsR], ?_⟩
              exact hrest.plug_bal (.red (.black hsl hsrl) (.black hsrr hb))
          | black =>
            cases hsl with
            | nil => simp [deleteCase5, getColor_nil, getColor_node, hsr.getColor_eq] at heq
            | black h1 h2 =>
              simp [deleteCase5, getColor_nil, getColor_node, hsr.getColor_eq] at heq
    | blackR c0 hsib hrest =>
      cases hsib with
      | red hsl hsr =>
        cases hsl with
        | black h1 h2 => simp [deleteCase5, getColor_nil, getColor_node] at heq
      | black hsl hsr =>
        rename_i sl sr si cl cr
        cases cl with
        | red =>
          cases hsl with
          | red hsll hslr =>
            rename_i sll slr sli
            simp [deleteCase5, getColor_nil, getColor_node] at heq
            subst heq
            refine ⟨by simp [items_plug, items, itemsL, itemsR], ?_⟩
            exact hrest.plug_bal (.black (.black hsll hslr) (.black hsr hb))
        | black =>
          cases cr with
          | red =>
            cases hsr with
            | red hsrl hsrr =>
              rename_i srl srr sri
              simp [deleteCase5, getColor_nil, getColor_node, hsl.getColor_eq] at heq
              subst heq
              refine ⟨by simp [items_plug, items, itemsL, itemsR], ?_⟩
              exact hrest.plug_bal (.black (.black hsl hsrl) (.black hsrr hb))
          | black =>
            cases hsl with
            | nil => simp [deleteCase5, getColor_nil, getColor_node, hsr.getColor_eq] at heq
            | black h1 h2 =>
              simp [deleteCase5, getColor_nil, getColor_node, hsr.getColor_eq] at heq

theorem deleteCase456_ok {n : Node} {f : Frame} {rest : Path} {cn : Color}
    {h : Nat} {r : Node} (hb : Bal n cn h)
    (hctx : CtxOK (f :: rest) .black (h + 1))
    (heq : deleteCase456 n f rest = some r) :
    items r = itemsL (f :: rest) ++ items n ++ itemsR (f :: rest) ∧
    ∃ H, Bal r .black H := by
  cases f with
  | left pc pi s =>
    cases hctx with
    | redL hsib hrest =>
      cases hsib with
      | black hsl hsr =>
        rename_i sl sr si cl cr
        cases cl with
        | black =>
          cases cr with
          | black =>
            -- case 4: repaint and break
            simp only [deleteCase456, Frame.sib, Frame.color] at heq
            rw [if_pos (by simp [hsl.getColor_eq, hsr.getColor_eq])] at heq
            simp only [Option.some.injEq] at heq
            subst heq
            refine ⟨by simp [items_plug, items, itemsL, itemsR], ?_⟩
            exact hrest.mono.plug_bal (.black hb (.red hsl hsr))
          | red =>
            simp only [deleteCase456, Frame.sib, Frame.color] at heq
            rw [if_neg (by simp [hsr.getColor_eq])] at heq
            exact deleteCase5_ok hb (.redL (.black hsl hsr) hrest) heq
        | red =>
          simp only [deleteCase456, Frame.sib, Frame.color] at heq
          rw [if_neg (by simp [hsl.getColor_eq])] at heq
          exact deleteCase5_ok hb (.redL (.black hsl hsr) hrest) heq
    | blackL c0 hsib hrest =>
      -- the parent frame is black, so case 4 cannot fire
      cases hsib with
      | red hsl hsr =>
        simp only [deleteCase456, Frame.sib, Frame.color] at heq
        rw [if_neg (by simp)] at heq
        exact deleteCase5_ok hb (.blackL .black (.red hsl hsr) hrest) heq
      | black hsl hsr =>
        simp only [deleteCase456, Frame.sib, Frame.color] at heq
        rw [if_neg (by simp)] at heq
        exact deleteCase5_ok hb (.blackL .black (.black hsl hsr) hrest) heq
  | right pc s pi =>
    cases hctx with
    | redR hsib hrest =>
      cases hsib with
      | black hsl hsr =>
        rename_i sl sr si cl cr
        cases cl with
        | black =>
          cases cr with
          | black =>
            simp only [deleteCase456, Frame.sib, Frame.color] at heq
            rw [if_pos (by simp [hsl.getColor_eq, hsr.getColor_eq])] at heq
            simp only [Option.some.injEq] at heq
            subst heq
            refine ⟨by simp [items_plug, items, itemsL, itemsR], ?_⟩
            exact hrest.mono.plug_bal (.black (.red hsl hsr) hb)
          | red =>
            simp only [deleteCase456, Frame.sib, Frame.color] at heq
            rw [if_neg (by simp [hsr.getColor_eq])] at heq
            exact deleteCase5_ok hb (.redR (.black hsl hsr) hrest) heq
        | red =>
          simp only [deleteCase456, Frame.sib, Frame.color] at heq
          rw [if_neg (by simp [hsl.getColor_eq])] at heq
          exact deleteCase5_ok hb (.redR (.black hsl hsr) hrest) heq
    | blackR c0 hsib hrest =>
      cases hsib with
      | red hsl hsr =>
        simp only [deleteCase456, Frame.sib, Frame.color] at heq
        rw [if_neg (by simp)] at heq
        exact deleteCase5_ok hb (.blackR .black (.red hsl hsr) hrest) heq
      | black hsl hsr =>
        simp only [deleteCase456, Frame.sib, Frame.color] at heq
        rw [if_neg (by simp)] at heq
        exact deleteCase5_ok hb (.blackR .black (.black hsl hsr) hrest) heq

theorem deleteCase1_ok : ∀ {path : Path} {s : Node} {cs : Color} {h : Nat}
    {r : Node}, Bal s cs h → CtxOK path .black (h + 1) →
    deleteCase1 s path = some r →
    items r = itemsL path ++ items s ++ itemsR path ∧
    ((∃ H, Bal r .black H) ∨ (path = [] ∧ r = s)) := by
  intro path
  induction path with
  | nil =>
    intro s cs h r hb hctx heq
    simp only [deleteCase1, Option.some.injEq] at heq
    subst heq
    exact ⟨by simp [itemsL, itemsR], Or.inr ⟨rfl, rfl⟩⟩
  | cons f rest ih =>
    intro s cs h r hb hctx heq
    cases f with
    | left pc pi sib =>
      cases hctx with
      | redL hsib hrest =>
        -- red parent: the sibling is black, case 3 cannot apply
        cases hsib with
        | black hsl hsr =>
          simp only [deleteCase1] at heq
          rw [if_neg (by simp)] at heq
          obtain ⟨hit, hbal⟩ :=
            deleteCase456_ok hb (.redL (.black hsl hsr) hrest) heq
          exact ⟨hit, Or.inl hbal⟩
      | blackL c0 hsib hrest =>
        cases hsib with
        | red hsl hsr =>
          -- case 2: red sibling; recolor, rotate, and run cases 4-6
          rename_i sl sr si
          simp only [deleteCase1] at heq
          obtain ⟨hit, hbal⟩ := deleteCase456_ok hb
            (.redL hsl (.blackL .red hsr hrest)) heq
          refine ⟨?_, Or.inl hbal⟩
          rw [hit]
          simp [itemsL, itemsR, items]
        | black hsl hsr =>
          rename_i sl sr si cl cr
          simp only [deleteCase1] at heq
          by_cases hcc : getColor sl = Color.black ∧ getColor sr = Color.black
          · -- case 3: paint the sibling red and recurse at the parent
            rw [if_pos (by simp [hcc.1, hcc.2])] at heq
            rw [hsl.getColor_eq] at hcc
            rw [hsr.getColor_eq] at hcc
            obtain ⟨rfl, rfl⟩ := hcc
            have hfocus : Bal (Node.node Color.black s pi
                (Node.node Color.red sl si sr)) Color.black (h + 1) :=
              .black hb (.red hsl hsr)
            obtain ⟨hit, hbal⟩ := ih hfocus hrest heq
            refine ⟨?_, ?_⟩
            · rw [hit]
              simp [itemsL, itemsR, items]
            · rcases hbal with hbal | ⟨hrest0, rfl⟩
              · exact Or.inl hbal
              · exact Or.inl ⟨h + 1, hfocus⟩
          · rw [if_neg (by simp [hcc])] at heq
            obtain ⟨hit, hbal⟩ :=
              deleteCase456_ok hb (.blackL .black (.black hsl hsr) hrest) heq
            exact ⟨hit, Or.inl hbal⟩
    | right pc sib pi =>
      cases hctx with
      | redR hsib hrest =>
        cases hsib with
        | black hsl hsr =>
          simp only [deleteCase1] at heq
          rw [if_neg (by simp)] at heq
          obtain ⟨hit, hbal⟩ :=
            deleteCase456_ok hb (.redR (.black hsl hsr) hrest) heq
          exact ⟨hit, Or.inl hbal⟩
      | blackR c0 hsib hrest =>
        cases hsib with
        | red hsl hsr =>
          rename_i sl sr si
          simp only [deleteCase1] at heq
          obtain ⟨hit, hbal⟩ := deleteCase456_ok hb
            (.redR hsr (.blackR .red hsl hrest)) heq
          refine ⟨?_, Or.inl hbal⟩
          rw [hit]
          simp [itemsL, itemsR, items]
        | black hsl hsr =>
          rename_i sl sr si cl cr
          simp only [deleteCase1] at heq
          by_cases hcc : getColor sl = Color.black ∧ getColor sr = Color.black
          · rw [if_pos (by simp [hcc.1, hcc.2])] at heq
            rw [hsl.getColor_eq] at hcc
            rw [hsr.getColor_eq] at hcc
            obtain ⟨rfl, rfl⟩ := hcc
            have hfocus : Bal (Node.node Color.black
                (Node.node Color.red sl si sr) pi s) Color.black (h + 1) :=
              .black (.red hsl hsr) hb
            obtain ⟨hit, hbal⟩ := ih hfocus hrest heq
            refine ⟨?_, ?_⟩
            · rw [hit]
              simp [itemsL, itemsR, items]
            · rcases hbal with hbal | ⟨hrest0, rfl⟩
              · exact Or.inl hbal
              · exact Or.inl ⟨h + 1, hfocus⟩
          · rw [if_neg (by simp [hcc])] at heq
            obtain ⟨hit, hbal⟩ :=
              deleteCase456_ok hb (.blackR .black (.black hsl hsr) hrest) heq
            exact ⟨hit, Or.inl hbal⟩

theorem excise_ok {c : Color} {l r : Node} {i : Item} {path : Path}
    {h : Nat} {res : Node} (hnil : l = .nil ∨ r = .nil)
    (hb : Bal (.node c l i r) c h) (hctx : CtxOK path c h)
    (heq : excise c l r path = some res) :
    items res = itemsL path ++ (items l ++ items r) ++ itemsR path ∧
    ∃ H, Bal res .black H := by
  cases hb with
  | red hl hr =>
    -- a red doomed node has two nil children
    have hlr : l = Node.nil ∧ r = Node.nil := by
      rcases hnil with rfl | rfl
      · cases hl
        cases hr
        exact ⟨rfl, rfl⟩
      · cases hr
        cases hl
        exact ⟨rfl, rfl⟩
    obtain ⟨rfl, rfl⟩ := hlr
    cases hl
    simp only [excise] at heq
    cases path with
    | nil => cases hctx
    | cons f p =>
      simp at heq
      subst heq
      refine ⟨by simp [items_plug, items], ?_⟩
      exact hctx.mono.plug_bal .nil
  | black hl hr =>
    rename_i cl cr h0
    cases r with
    | node rc rl ri rr =>
      -- the spliced child is the right child; the left is nil
      have hlnil : l = Node.nil := by
        rcases hnil with rfl | h1
        · rfl
        · exact absurd h1 (by simp)
      subst hlnil
      cases hl
      simp only [excise] at heq
      cases hdc : deleteCase1 (Node.node rc rl ri rr) path with
      | none =>
        rw [hdc] at heq
        simp at heq
      | some t =>
        rw [hdc] at heq
        obtain ⟨hit, hbal⟩ := deleteCase1_ok hr hctx hdc
        cases path with
        | nil =>
          simp at heq
          subst heq
          refine ⟨by rw [items_setBlack, hit]; simp [items], ?_⟩
          rcases hbal with ⟨H, hbt⟩ | ⟨h1, rfl⟩
          · exact hbt.setBlack_any
          · exact hr.setBlack_any
        | cons f p =>
          simp at heq
          subst heq
          refine ⟨by rw [hit]; simp [items], ?_⟩
          rcases hbal with hbal | ⟨habs, h2⟩
          · exact hbal
          · exact absurd habs (by simp)
    | nil =>
      -- the spliced child is the left child
      cases hr
      simp only [excise] at heq
      cases hdc : deleteCase1 l path with
      | none =>
        rw [hdc] at heq
        simp at heq
      | some t =>
        rw [hdc] at heq
        obtain ⟨hit, hbal⟩ := deleteCase1_ok hl hctx hdc
        cases path with
        | nil =>
          simp at heq
          subst heq
          refine ⟨by rw [items_setBlack, hit]; simp [items], ?_⟩
          rcases hbal with ⟨H, hbt⟩ | ⟨h1, rfl⟩
          · exact hbt.setBlack_any
          · exact hl.setBlack_any
        | cons f p =>
          simp at heq
          subst heq
          refine ⟨by rw [hit]; simp [items], ?_⟩
          rcases hbal with hbal | ⟨habs, h2⟩
          · exact hbal
          · exact absurd habs (by simp)

theorem rightmostZ_plug : ∀ (t : Node) (p : Path),
    plug (rightmostZ t p).1 (rightmostZ t p).2 = plug t p := by
  intro t
  induction t with
  | nil => intro p; rfl
  | node c l i r ihl ihr =>
    intro p
    cases r with
    | nil => rfl
    | node rc rl ri rr =>
      simpa [rightmostZ, plug, Frame.fill] using ihr (.right c l i :: p)

theorem rightmostZ_shape : ∀ (r : Node) (c : Color) (l : Node) (i : Item)
    (p : Path), ∃ pc pl pitem relp,
    rightmostZ (.node c l i r) p = (.node pc pl pitem .nil, relp) := by
  intro r
  induction r with
  | nil => intro c l i p; exact ⟨c, l, i, p, rfl⟩
  | node rc rl ri rr ihl ihr =>
    intro c l i p
    simpa [rightmostZ] using ihr rc rl ri (.right c l i :: p)

theorem rightmostZ_itemsR : ∀ (t : Node) (p : Path),
    itemsR (rightmostZ t p).2 = itemsR p := by
  intro t
  induction t with
  | nil => intro p; rfl
  | node c l i r ihl ihr =>
    intro p
    cases r with
    | nil => rfl
    | node rc rl ri rr =>
      simpa [rightmostZ, itemsR] using ihr (.right c l i :: p)

theorem zipperToKey_spec : ∀ (t : Node) (p : Path) {k : Int} {n : Node}
    {q : Path}, zipperToKey k t p = some (n, q) →
    plug n q = plug t p ∧ ∃ c l i r, n = .node c l i r := by
  intro t
  induction t with
  | nil => intro p k n q heq; simp [zipperToKey] at heq
  | node c l i r ihl ihr =>
    intro p k n q heq
    simp only [zipperToKey] at heq
    split at heq
    · simp only [Option.some.injEq, Prod.mk.injEq] at heq
      obtain ⟨rfl, rfl⟩ := heq
      exact ⟨rfl, c, l, i, r, rfl⟩
    · split at heq
      · have h1 := ihl _ heq
        exact ⟨by rw [h1.1]; rfl, h1.2⟩
      · have h1 := ihr _ heq
        exact ⟨by rw [h1.1]; rfl, h1.2⟩

theorem doDeleteZ_ok {c : Color} {l : Node} {i : Item} {r : Node}
    {path : Path} {c0 : Color} {h : Nat} {res : Node}
    (hb : Bal (.node c l i r) c0 h) (hctx : CtxOK path c0 h)
    (heq : doDeleteZ (.node c l i r) path = some res) :
    items res = itemsL path ++ (items l ++ items r) ++ itemsR path ∧
    ∃ H, Bal res .black H := by
  have hc0 : c = c0 := by cases hb <;> rfl
  subst hc0
  cases l with
  | nil =>
    simp only [doDeleteZ] at heq
    exact excise_ok (Or.inl rfl) hb hctx heq
  | node lc ll li lr =>
    cases r with
    | nil =>
      simp only [doDeleteZ] at heq
      exact excise_ok (Or.inr rfl) hb hctx heq
    | node rc rl ri rr =>
      -- two children: the predecessor item replaces the doomed one and the
      -- predecessor position is excised
      obtain ⟨pc, pl, pitem, relp, hrm⟩ := rightmostZ_shape lr lc ll li []
      rw [doDeleteZ, hrm] at heq
      have hplugrel : plug (.node pc pl pitem .nil) relp =
          .node lc ll li lr := by
        have h1 := rightmostZ_plug (.node lc ll li lr) []
        rw [hrm] at h1
        simpa [plug] using h1
      have hswap : Bal (.node c (.node lc ll li lr) pitem
          (.node rc rl ri rr)) c h := hb.item_swap pitem
      obtain ⟨H, hfull⟩ := hctx.plug_bal hswap
      have hfull2 : Bal (plug (.node pc pl pitem .nil)
          (relp ++ Frame.left c pitem (.node rc rl ri rr) :: path))
          .black H := by
        rw [plug_append, hplugrel]
        exact hfull
      obtain ⟨cp, hp, hbpred, hctxfull⟩ := bal_decomp _ _ H hfull2
      have hcp : cp = pc := by cases hbpred <;> rfl
      subst hcp
      obtain ⟨hit, hbal⟩ := excise_ok (Or.inr rfl) hbpred hctxfull heq
      refine ⟨?_, hbal⟩
      have hR0 : itemsR relp = [] := by
        have h1 := rightmostZ_itemsR (.node lc ll li lr) []
        rw [hrm] at h1
        simpa [itemsR] using h1
      have hitl : items (Node.node lc ll li lr) =
          itemsL relp ++ items pl ++ [pitem] := by
        have h2 := items_plug (.node cp pl pitem .nil) relp
        rw [hplugrel, hR0] at h2
        simpa [items] using h2
      rw [hit, itemsL_append, itemsR_append, hR0, hitl]
      simp [itemsL, itemsR, items]

/-- Go `doDelete` (at the node key `k` designates) preserves the internal
invariant, and every item of the result is an item of the input tree. -/
theorem doDelete_inv {t : RBTree} {k : Int} {t' : RBTree}
    (hinv : Inv t) (heq : t.doDelete k = some t') :
    Inv t' ∧ ∀ j ∈ items t'.root, j ∈ items t.root := by
  obtain ⟨⟨H, hbal⟩, hsort, hcount⟩ := hinv
  cases hz : zipperToKey k t.root [] with
  | none => simp [RBTree.doDelete, hz] at heq
  | some np =>
    obtain ⟨n, path⟩ := np
    obtain ⟨hplug, c, l, i, r, rfl⟩ := zipperToKey_spec t.root [] hz
    have hplug2 : plug (.node c l i r) path = t.root := by
      simpa [plug] using hplug
    obtain ⟨c0, h0, hbn, hctx⟩ := bal_decomp path _ H
      (by rw [hplug2]; exact hbal)
    cases hdz : doDeleteZ (.node c l i r) path with
    | none => simp [RBTree.doDelete, hz, hdz] at heq
    | some root2 =>
      obtain ⟨hit, Hb, hbal2⟩ := doDeleteZ_ok hbn hctx hdz
      have hitems0 : items t.root =
          itemsL path ++ (items l ++ i :: items r) ++ itemsR path := by
        rw [← hplug2, items_plug, items]
      have hsub : (items root2).Sublist (items t.root) := by
        rw [hit, hitems0]
        refine List.Sublist.append (List.Sublist.append (List.Sublist.refl _)
          (List.Sublist.append (List.Sublist.refl _) ?_)) (List.Sublist.refl _)
        exact List.sublist_cons_self i (items r)
      have hsort2 : (keys root2).Pairwise (· < ·) := by
        rw [keys, List.pairwise_map] at hsort ⊢
        exact hsort.sublist hsub
      have hlen2 : (items root2).length + 1 = (items t.root).length := by
        rw [hit, hitems0]
        simp
        omega
      have hcount2 : t.count - 1 = ((keys root2).length : Int) := by
        simp only [keys, List.length_map] at hcount ⊢
        omega
      simp only [RBTree.doDelete, hz, hdz] at heq
      split at heq
      · simp only [Option.some.injEq] at heq
        subst heq
        exact ⟨⟨⟨Hb, hbal2⟩, hsort2, hcount2⟩, fun j hj => hsub.subset hj⟩
      · simp only [Option.some.injEq] at heq
        subst heq
        exact ⟨⟨⟨Hb, hbal2⟩, hsort2, hcount2⟩, fun j hj => hsub.subset hj⟩

/-- Go `DeleteWithKey` preserves the internal invariant, and every item of
the result is an item of the input tree — whatever node the wrapped
`FindGE` descent lands on, deletion only removes it. -/
theorem deleteWithKey_inv {t : RBTree} {k : Int} {b : Bool} {t' : RBTree}
    (hinv : Inv t) (heq : t.deleteWithKey k = some (b, t')) :
    Inv t' ∧ ∀ j ∈ items t'.root, j ∈ items t.root := by
  rcases hfg : findGEZ k t.root [] with ⟨o, bb⟩
  cases o with
  | none =>
    simp only [RBTree.deleteWithKey, hfg, Option.some.injEq,
      Prod.mk.injEq] at heq
    rw [← heq.2]
    exact ⟨hinv, fun j hj => hj⟩
  | some np =>
    obtain ⟨n, p⟩ := np
    cases hd : t.doDelete (rootKey n) with
    | none => simp [RBTree.deleteWithKey, hfg, hd] at heq
    | some t2 =>
      simp only [RBTree.deleteWithKey, hfg, hd, Option.some.injEq,
        Prod.mk.injEq] at heq
      rw [← heq.2]
      exact doDelete_inv hinv hd

/-- Go `DeleteWithIterator` preserves the internal invariant, and every
item of the result is an item of the input tree. -/
theorem deleteWithIterator_inv {t : RBTree} {k : Int} {t' : RBTree}
    (hinv : Inv t) (heq : t.deleteWithIterator (.atKey k) = some t') :
    Inv t' ∧ ∀ j ∈ items t'.root, j ∈ items t.root := by
  simp only [RBTree.deleteWithIterator] at heq
  exact doDelete_inv hinv heq

/-- Every tree the public mutating API can build (with insert keys in the
wrap-free range) satisfies the internal invariant, and all its keys stay
in that range. -/
theorem reachable_inv {t : RBTree} (ht : Reachable t) :
    Inv t ∧ ∀ j ∈ items t.root, safeKey j.key := by
  induction ht with
  | empty =>
    refine ⟨⟨⟨0, .nil⟩, by simp [keys, items, emptyTree],
      by simp [keys, items, emptyTree]⟩, ?_⟩
    intro j hj
    simp [emptyTree, items] at hj
  | insert hr hsk heq ih =>
    obtain ⟨hinv, hsafe⟩ := ih
    obtain ⟨hinv2, hmem⟩ := insert_inv hinv hsk hsafe heq
    refine ⟨hinv2, fun j hj => ?_⟩
    rcases hmem j hj with rfl | hj2
    · exact hsk
    · exact hsafe j hj2
  | deleteWithKey hr heq ih =>
    obtain ⟨hinv, hsafe⟩ := ih
    obtain ⟨hinv2, hmem⟩ := deleteWithKey_inv hinv heq
    exact ⟨hinv2, fun j hj => hsafe j (hmem j hj)⟩
  | deleteWithIterator hr hk heq ih =>
    obtain ⟨hinv, hsafe⟩ := ih
    obtain ⟨hinv2, hmem⟩ := deleteWithIterator_inv hinv heq
    exact ⟨hinv2, fun j hj => hsafe j (hmem j hj)⟩

/-- A balanced subtree has no red node with a red child. -/
theorem Bal.noRedRed {t : Node} {c : Color} {h : Nat} (hb : Bal t c h) :
    noRedRedB t = true := by
  induction hb with
  | nil => rfl
  | red hl hr ihl ihr =>
    simp [noRedRedB, hl.getColor_eq, hr.getColor_eq, ihl, ihr]
  | black hl hr ihl ihr => simp [noRedRedB, ihl, ihr]

/-- A balanced subtree has the same number of black nodes (counting the
final nil) on every root-to-nil path. -/
theorem Bal.blackCount_eq {t : Node} {c : Color} {h : Nat} (hb : Bal t c h) :
    blackCount t = some (h + 1) := by
  induction hb with
  | nil => rfl
  | red hl hr ihl ihr => simp [blackCount, ihl, ihr]
  | black hl hr ihl ihr => simp [blackCount, ihl, ihr]

/-! ## Claim C1: the red-black invariants hold after every operation -/

/-- Claim C1 as stated fails: `Insert` compares keys by the wrapped 64-bit
difference `item.Key - parent.item.Key`, so inserting `2^62` and then
`-2^62 - 1` (whose difference `-2^63 - 1` wraps to `2^63 - 1 > 0`)
attaches the smaller key as a *right* child and leaves the in-order keys
out of strict search-tree order. -/
theorem insert_wrap_counterexample :
    emptyTree.insert ⟨2 ^ 62, 0⟩ = some (true, c1ceA) ∧
    c1ceA.insert ⟨-(2 ^ 62) - 1, 0⟩ = some (true, c1ceB) ∧
    ¬ (keys c1ceB.root).Pairwise (· < ·) := by
  decide

/-- Claim C1, amended: for every RBTree built from the empty tree by a
finite sequence of `Insert` (with keys restricted to `[-2^62, 2^62)`,
where the wrapped comparison cannot overflow; see
`insert_wrap_counterexample` for what happens outside that range),
`DeleteWithKey` and `DeleteWithIterator` operations, the root is black, no
red node has a red child, every root-to-nil path carries the same number
of black nodes, the in-order keys are strictly increasing, and `Len()`
equals the number of stored keys. -/
theorem reachable_invariants {t : RBTree} (ht : Reachable t) :
    getColor t.root = .black ∧ noRedRedB t.root = true ∧
    (blackCount t.root).isSome = true ∧
    (keys t.root).Pairwise (· < ·) ∧
    t.len = ((keys t.root).length : Int) := by
  obtain ⟨⟨⟨h, hbal⟩, hsort, hcount⟩, _⟩ := reachable_inv ht
  refine ⟨hbal.getColor_eq, hbal.noRedRed, ?_, hsort, hcount⟩
  rw [hbal.blackCount_eq]
  rfl

/-- Witness for `reachable_invariants`: insert 5, 3, 8, 1 (the last insert
recolors), delete key 5 (a node with two children), then delete key 8
through an iterator. -/
theorem reachable_invariants_witness :
    getColor c1T6.root = .black ∧ noRedRedB c1T6.root = true ∧
    (blackCount c1T6.root).isSome = true ∧
    (keys c1T6.root).Pairwise (· < ·) ∧
    c1T6.len = ((keys c1T6.root).length : Int) :=
  reachable_invariants
    (Reachable.deleteWithIterator
      (Reachable.deleteWithKey
        (Reachable.insert
          (Reachable.insert
            (Reachable.insert
              (Reachable.insert Reachable.empty (by decide)
                (show emptyTree.insert ⟨5, 50⟩ = some (true, c1T1) by decide))
              (by decide)
              (show c1T1.insert ⟨3, 30⟩ = some (true, c1T2) by decide))
            (by decide)
            (show c1T2.insert ⟨8, 80⟩ = some (true, c1T3) by decide))
          (by decide)
          (show c1T3.insert ⟨1, 10⟩ = some (true, c1T4) by decide))
        (show c1T4.deleteWithKey 5 = some (true, c1T5) by decide))
      (show (8 : Int) ∈ keys c1T5.root by decide)
      (show c1T5.deleteWithIterator (.atKey 8) = some c1T6 by decide))

/-! ## Claim C4: FindGE and FindLE -/

theorem climbNext_spec : ∀ (p : Path) (t : Node)
    (res : Option (Node × Path)), climbNext t p = res →
    match res with
    | none => itemsR p = []
    | some mq => ∃ c2 l2 i2 r2, mq.1 = Node.node c2 l2 i2 r2 ∧
        plug mq.1 mq.2 = plug t p ∧
        itemsL mq.2 ++ items l2 = itemsL p ++ items t ∧
        itemsR p = i2 :: items r2 ++ itemsR mq.2 := by
  intro p
  induction p with
  | nil =>
    intro t res heq
    simp only [climbNext] at heq
    cases heq
    simp [itemsR]
  | cons f rest ih =>
    intro t res heq
    cases f with
    | left c i sib =>
      simp only [climbNext] at heq
      cases heq
      exact ⟨c, t, i, sib, rfl, rfl, rfl, rfl⟩
    | right c sib i =>
      simp only [climbNext] at heq
      have h := ih (.node c sib i t) res heq
      cases res with
      | none => simpa [itemsR] using h
      | some mq =>
        obtain ⟨c2, l2, i2, r2, hm, hplug, hiL, hiR⟩ := h
        refine ⟨c2, l2, i2, r2, hm, hplug, ?_, ?_⟩
        · rw [hiL]
          simp [itemsL, items]
        · simpa [itemsR] using hiR

theorem findGEZ_node (k : Int) (c : Color) (l : Node) (i : Item) (r : Node)
    (path : Path) : findGEZ k (.node c l i r) path =
    if wrap64 (k - i.key) = 0 then (some (.node c l i r, path), true)
    else if wrap64 (k - i.key) < 0 then
      match l with
      | .node lc ll li lr =>
        findGEZ k (.node lc ll li lr) (.left c i r :: path)
      | .nil => (some (.node c l i r, path), false)
    else
      match r with
      | .node rc rl ri rr =>
        findGEZ k (.node rc rl ri rr) (.right c l i :: path)
      | .nil =>
        match climbNext (.node c l i r) path with
        | none => (none, false)
        | some (succ, spath) =>
          (some (succ, spath), decide (k = rootKey succ)) := by
  rw [findGEZ.eq_def]

theorem findGEZ_correct : ∀ (t : Node) (p : Path) (k : Int)
    (o : Option (Node × Path)) (ex : Bool), t ≠ .nil →
    safeKey k → (∀ j ∈ items t, safeKey j.key) →
    (items (plug t p)).Pairwise (fun a b => a.key < b.key) →
    (∀ j ∈ itemsL p, j.key < k) →
    (∀ j ∈ itemsR p, k < j.key) →
    findGEZ k t p = (o, ex) →
    match o with
    | none => ∀ x ∈ items t ++ itemsR p, x.key < k
    | some nq => ∃ c l i r, nq.1 = Node.node c l i r ∧
        plug nq.1 nq.2 = plug t p ∧
        (∀ x ∈ itemsL nq.2 ++ items l, x.key < k) ∧ k ≤ i.key ∧
        (ex = true ↔ k = i.key) := by
  intro t
  induction t with
  | nil => intro p k o ex hne; exact absurd rfl hne
  | node c l i r ihl ihr =>
    intro p k o ex hne hks hsafe hsort hL hR heq
    obtain ⟨hsafeL, hsafeI, hsafeR⟩ := safe_items_split hsafe
    have hw : wrap64 (k - i.key) = k - i.key := wrap64_sub_safe hks hsafeI
    have hsortT : (items (Node.node c l i r)).Pairwise
        (fun a b : Item => a.key < b.key) := by
      refine List.Pairwise.sublist ?_ (by rwa [items_plug] at hsort)
      exact (List.sublist_append_right (itemsL p) _).trans
        (List.sublist_append_left _ _)
    obtain ⟨hpl, hpc, hrel⟩ := List.pairwise_append.mp
      (by simpa [items] using hsortT)
    have hir : ∀ x ∈ items r, i.key < x.key :=
      (List.pairwise_cons.mp hpc).1
    have hli : ∀ x ∈ items l, x.key < i.key :=
      fun x hx => hrel x hx i (by simp)
    rw [findGEZ_node, hw] at heq
    by_cases hc0 : k - i.key = 0
    · rw [if_pos hc0] at heq
      cases heq
      have hk : k = i.key := by omega
      refine ⟨c, l, i, r, rfl, rfl, ?_, le_of_eq hk, by simp [hk]⟩
      intro x hx
      rcases List.mem_append.mp hx with hx | hx
      · exact hL x hx
      · rw [hk]; exact hli x hx
    · rw [if_neg hc0] at heq
      by_cases hlt : k - i.key < 0
      · rw [if_pos hlt] at heq
        have hik : k < i.key := by omega
        cases l with
        | nil =>
          cases heq
          refine ⟨c, .nil, i, r, rfl, rfl, ?_, le_of_lt hik, by simp; omega⟩
          intro x hx
          rcases List.mem_append.mp hx with hx | hx
          · exact hL x hx
          · simp [items] at hx
        | node lc ll li lr =>
          have h := ihl (.left c i r :: p) k o ex (by simp) hks hsafeL
            (by rwa [show plug (Node.node lc ll li lr)
              (Frame.left c i r :: p) = plug (Node.node c
              (Node.node lc ll li lr) i r) p from rfl])
            (by simpa [itemsL] using hL)
            (by
              intro j hj
              have hj2 : j = i ∨ j ∈ items r ∨ j ∈ itemsR p := by
                simpa [itemsR, List.mem_append, or_assoc] using hj
              rcases hj2 with rfl | hj | hj
              · exact hik
              · exact hik.trans (hir j hj)
              · exact hR j hj)
            heq
          cases o with
          | none =>
            -- impossible: the parent item i itself satisfies k < i.key
            exact absurd (h i (by simp [itemsR])) (by omega)
          | some nq =>
            obtain ⟨c2, l2, i2, r2, hm, hplug, hbnd, hkle, hflag⟩ := h
            exact ⟨c2, l2, i2, r2, hm, hplug, hbnd, hkle, hflag⟩
      · rw [if_neg hlt] at heq
        have hik : i.key < k := by omega
        cases r with
        | node rc rl ri rr =>
          have h := ihr (.right c l i :: p) k o ex (by simp) hks hsafeR
            (by rwa [show plug (Node.node rc rl ri rr)
              (Frame.right c l i :: p) = plug (Node.node c l i
              (Node.node rc rl ri rr)) p from rfl])
            (by
              intro j hj
              have hj2 : j ∈ itemsL p ∨ j ∈ items l ∨ j = i := by
                simpa [itemsL, List.mem_append, or_assoc] using hj
              rcases hj2 with hj | hj | rfl
              · exact hL j hj
              · exact (hli j hj).trans hik
              · exact hik)
            (by simpa [itemsR] using hR)
            heq
          cases o with
          | none =>
            intro x hx
            rcases List.mem_append.mp hx with hx | hx
            · have hx2 : x ∈ items l ∨ x = i ∨
                  x ∈ items (Node.node rc rl ri rr) := by
                simpa [items, or_assoc] using hx
              rcases hx2 with hx | rfl | hx
              · exact (hli x hx).trans hik
              · exact hik
              · exact h x (by simp [hx])
            · exact h x (by simp [itemsR, hx])
          | some nq =>
            obtain ⟨c2, l2, i2, r2, hm, hplug, hbnd, hkle, hflag⟩ := h
            exact ⟨c2, l2, i2, r2, hm, hplug, hbnd, hkle, hflag⟩
        | nil =>
          cases hcn : climbNext (.node c l i .nil) p with
          | none =>
            rw [hcn] at heq
            cases heq
            have h := climbNext_spec p (.node c l i .nil) none hcn
            intro x hx
            rcases List.mem_append.mp hx with hx | hx
            · have hx2 : x ∈ items l ∨ x = i := by
                simpa [items] using hx
              rcases hx2 with hx | rfl
              · exact (hli x hx).trans hik
              · exact hik
            · rw [h] at hx
              simp at hx
          | some mq =>
            obtain ⟨succ, spath⟩ := mq
            rw [hcn] at heq
            cases heq
            have h := climbNext_spec p (.node c l i .nil)
              (some (succ, spath)) hcn
            obtain ⟨c2, l2, i2, r2, hm, hplug, hiL, hiR⟩ := h
            refine ⟨c2, l2, i2, r2, hm, hplug, ?_, ?_, ?_⟩
            · intro x hx
              rw [hiL] at hx
              rcases List.mem_append.mp hx with hx | hx
              · exact hL x hx
              · have hx2 : x ∈ items l ∨ x = i := by
                  simpa [items] using hx
                rcases hx2 with hx | rfl
                · exact (hli x hx).trans hik
                · exact hik
            · have hmem : i2 ∈ itemsR p := by rw [hiR]; simp
              exact le_of_lt (hR i2 hmem)
            · have hrk : rootKey succ = i2.key := by
                simp only at hm
                rw [hm, rootKey]
              rw [hrk]
              simp

theorem climbPrev_itemsL : ∀ (p : Path) (t : Node)
    (res : Option (Node × Path)), climbPrev t p = res →
    match res with
    | none => itemsL p = []
    | some mq => ∃ j, (itemsL p).getLast? = some j ∧ rootKey mq.1 = j.key := by
  intro p
  induction p with
  | nil =>
    intro t res heq
    simp only [climbPrev] at heq
    cases heq
    simp [itemsL]
  | cons f rest ih =>
    intro t res heq
    cases f with
    | right c sib i =>
      simp only [climbPrev] at heq
      cases heq
      refine ⟨i, ?_, rfl⟩
      simp [itemsL]
    | left c i sib =>
      simp only [climbPrev] at heq
      have h := ih (.node c t i sib) res heq
      cases res with
      | none => simpa [itemsL] using h
      | some mq =>
        obtain ⟨j, hj, hk⟩ := h
        exact ⟨j, by simpa [itemsL] using hj, hk⟩

theorem getLast?_append_right {α : Type} : ∀ (l1 l2 : List α), l2 ≠ [] →
    (l1 ++ l2).getLast? = l2.getLast? := by
  intro l1 l2 h
  induction l1 with
  | nil => rfl
  | cons a as ih =>
    cases has : as ++ l2 with
    | nil =>
      cases l2 with
      | nil => exact absurd rfl h
      | cons b bs => simp at has
    | cons b bs =>
      rw [List.cons_append, has, List.getLast?_cons_cons, ← has, ih]

theorem rightmostZ_getLast : ∀ (r0 : Node) (c : Color) (l : Node) (i : Item)
    (p : Path), ∃ j, (items (.node c l i r0)).getLast? = some j ∧
      rootKey (rightmostZ (.node c l i r0) p).1 = j.key := by
  intro r0
  induction r0 with
  | nil =>
    intro c l i p
    refine ⟨i, ?_, rfl⟩
    rw [show items (Node.node c l i Node.nil) = items l ++ [i] from
      by simp [items]]
    rw [getLast?_append_right _ _ (by simp)]
    rfl
  | node rc rl ri rr ihl ihr =>
    intro c l i p
    obtain ⟨j, hj, hk⟩ := ihr rc rl ri (.right c l i :: p)
    refine ⟨j, ?_, by simpa [rightmostZ] using hk⟩
    rw [show items (Node.node c l i (Node.node rc rl ri rr)) =
      (items l ++ [i]) ++ items (Node.node rc rl ri rr) from
      by simp [items]]
    rw [getLast?_append_right _ _ (by simp [items]), hj]

theorem doPrevZ_pred : ∀ (c : Color) (l : Node) (i : Item) (r : Node)
    (p : Path) (res : Option (Node × Path)),
    doPrevZ (.node c l i r) p = res →
    match res with
    | none => itemsL p ++ items l = []
    | some mq => ∃ j, (itemsL p ++ items l).getLast? = some j ∧
        rootKey mq.1 = j.key := by
  intro c l i r p res heq
  cases l with
  | nil =>
    simp only [doPrevZ] at heq
    have h := climbPrev_itemsL p (.node c .nil i r) res heq
    cases res with
    | none => simpa [items] using h
    | some mq =>
      obtain ⟨j, hj, hk⟩ := h
      exact ⟨j, by simpa [items] using hj, hk⟩
  | node lc ll li lr =>
    simp only [doPrevZ] at heq
    obtain ⟨j, hj, hk⟩ := rightmostZ_getLast lr lc ll li (.left c i r :: p)
    cases heq
    refine ⟨j, ?_, hk⟩
    rw [getLast?_append_right _ _ (by simp [items]), hj]

theorem filter_all_false {α : Type} (P : α → Bool) : ∀ (l : List α),
    (∀ x ∈ l, P x = false) → l.filter P = [] := by
  intro l h
  induction l with
  | nil => rfl
  | cons a as ih =>
    rw [List.filter_cons_of_neg (by simp [h a (by simp)])]
    exact ih fun x hx => h x (by simp [hx])

theorem filter_all_true {α : Type} (P : α → Bool) : ∀ (l : List α),
    (∀ x ∈ l, P x = true) → l.filter P = l := by
  intro l h
  induction l with
  | nil => rfl
  | cons a as ih =>
    rw [List.filter_cons_of_pos (h a (by simp))]
    rw [ih fun x hx => h x (by simp [hx])]

theorem filter_map_key (P : Int → Bool) : ∀ (l : List Item),
    (l.map Item.key).filter P = (l.filter (fun j => P j.key)).map Item.key := by
  intro l
  induction l with
  | nil => rfl
  | cons a as ih =>
    by_cases h : P a.key = true
    · simp only [List.map_cons, List.filter_cons, h, if_true]
      rw [ih]
    · have hb : P a.key = false := by simpa using h
      simp only [List.map_cons, List.filter_cons, hb]
      rw [ih]
      simp

theorem getLast?_map {α β : Type} (f : α → β) : ∀ (l : List α),
    (l.map f).getLast? = l.getLast?.map f := by
  intro l
  induction l with
  | nil => rfl
  | cons a as ih =>
    cases as with
    | nil => rfl
    | cons b bs =>
      rw [List.map_cons, List.map_cons, List.getLast?_cons_cons,
        ← List.map_cons, ih, List.getLast?_cons_cons]

/-- Claim C4, amended: when the searched key and every stored key lie in
`[-2^62, 2^62)` — so that the wrapped 64-bit comparison
`key - n.item.Key` of the descent cannot overflow; see
`findGE_wrap_counterexample` for what happens outside that range —
`FindGE(k)` returns an iterator at the smallest stored key `≥ k` (the head
of the `≥ k` part of the sorted key list), or `Limit` if every stored key
is `< k`; `FindLE(k)` returns an iterator at the largest stored key `≤ k`
(the last of the `≤ k` part), or `NegativeLimit` if every stored key is
`> k` — in particular on the empty tree. Hypotheses: the keys are in
strict search-tree order and the max cache points at the last key, as the
API maintains. -/
theorem findGE_findLE_spec {t : RBTree} {k : Int}
    (hsort : (keys t.root).Pairwise (· < ·))
    (hmax : t.maxNode = (keys t.root).getLast?)
    (hks : safeKey k) (hsafe : ∀ x ∈ keys t.root, safeKey x) :
    t.findGE k = (match ((keys t.root).filter (fun x => k ≤ x)).head? with
      | none => Iter.limit
      | some m => Iter.atKey m) ∧
    t.findLE k = (match ((keys t.root).filter (fun x => x ≤ k)).getLast? with
      | none => Iter.negativeLimit
      | some m => Iter.atKey m) := by
  have hsortI : (items t.root).Pairwise (fun a b : Item => a.key < b.key) := by
    rw [keys, List.pairwise_map] at hsort
    exact hsort
  cases htr : t.root with
  | nil =>
    rw [htr] at hmax
    constructor
    · simp [RBTree.findGE, htr, findGEZ, keys, items]
    · rw [RBTree.findLE, htr]
      rw [show findGEZ k Node.nil [] = (none, false) from rfl]
      rw [hmax]
      simp [keys, items]
  | node c0 l0 i0 r0 =>
    rw [← htr]
    obtain ⟨o, ex, hfg⟩ : ∃ o ex, findGEZ k t.root [] = (o, ex) := ⟨_, _, rfl⟩
    have hsafeI : ∀ j ∈ items t.root, safeKey j.key := fun j hj =>
      hsafe j.key (by simp [keys]; exact ⟨j, hj, rfl⟩)
    have h := findGEZ_correct t.root [] k o ex (by rw [htr]; simp) hks hsafeI
      (by simpa [plug] using hsortI) (by simp [itemsL]) (by simp [itemsR]) hfg
    cases o with
    | none =>
      have hall : ∀ x ∈ items t.root, x.key < k := fun x hx =>
        h x (by simp [itemsR, hx])
      constructor
      · have hfil : (keys t.root).filter (fun x => k ≤ x) = [] := by
          rw [keys, filter_map_key, filter_all_false _ _
            (fun j hj => decide_eq_false (not_le.mpr (hall j hj)))]
          rfl
        rw [hfil]
        simp [RBTree.findGE, hfg]
      · have hfil : (keys t.root).filter (fun x => x ≤ k) = keys t.root := by
          rw [keys, filter_map_key, filter_all_true _ _
            (fun j hj => decide_eq_true (le_of_lt (hall j hj)))]
        rw [hfil, ← hmax]
        rw [RBTree.findLE, hfg]
    | some nq =>
      obtain ⟨n, q⟩ := nq
      obtain ⟨c2, l2, i2, r2, hn, hplug, hbnd, hkle, hflag⟩ := h
      simp only at hn
      have hplug2 : plug n q = t.root := by simpa [plug] using hplug
      have hitems : items t.root =
          (itemsL q ++ items l2) ++ i2 :: (items r2 ++ itemsR q) := by
        rw [← hplug2, hn, items_plug, items]
        simp
      have hafter : ∀ x ∈ items r2 ++ itemsR q, i2.key < x.key := by
        have hp := hsortI
        rw [hitems] at hp
        exact (List.pairwise_cons.mp (List.pairwise_append.mp hp).2.1).1
      have hrk : rootKey n = i2.key := by rw [hn]; rfl
      constructor
      · have hfil : (keys t.root).filter (fun x => k ≤ x) =
            i2.key :: ((items r2 ++ itemsR q).filter
              (fun j => decide (k ≤ j.key))).map Item.key := by
          rw [keys, filter_map_key, hitems, List.filter_append,
            filter_all_false _ _
              (fun j hj => decide_eq_false (not_le.mpr (hbnd j hj)))]
          simp only [List.filter_cons, decide_eq_true_eq]
          rw [if_pos hkle]
          simp
        rw [hfil]
        simp [RBTree.findGE, hfg, hrk]
      · cases ex with
        | true =>
          have hk2 : k = i2.key := hflag.mp rfl
          have hfil : (keys t.root).filter (fun x => x ≤ k) =
              ((itemsL q ++ items l2).map Item.key) ++ [i2.key] := by
            rw [keys, filter_map_key, hitems, List.filter_append,
              filter_all_true _ _
                (fun j hj => decide_eq_true (le_of_lt (hbnd j hj)))]
            simp only [List.filter_cons, decide_eq_true_eq]
            rw [if_pos (le_of_eq hk2.symm)]
            rw [filter_all_false _ _ (fun j hj => decide_eq_false
              (not_le.mpr (hk2 ▸ hafter j hj)))]
            simp
          rw [hfil, getLast?_append_right _ _ (by simp)]
          simp only [RBTree.findLE, hfg]
          rw [hrk]
          simp
        | false =>
          have hk2 : k ≠ i2.key := fun hcon => by simp [hcon] at hflag
          have hik2 : k < i2.key := lt_of_le_of_ne hkle hk2
          have hfil : (keys t.root).filter (fun x => x ≤ k) =
              (itemsL q ++ items l2).map Item.key := by
            rw [keys, filter_map_key, hitems, List.filter_append,
              filter_all_true _ _
                (fun j hj => decide_eq_true (le_of_lt (hbnd j hj)))]
            simp only [List.filter_cons, decide_eq_true_eq]
            rw [if_neg (not_le.mpr hik2)]
            rw [filter_all_false _ _ (fun j hj => decide_eq_false
              (not_le.mpr (hik2.trans (hafter j hj))))]
            simp
          simp only [RBTree.findLE, hfg]
          rw [hn]
          cases hdp : doPrevZ (.node c2 l2 i2 r2) q with
          | none =>
            have hp := doPrevZ_pred c2 l2 i2 r2 q none hdp
            rw [hfil, hp]
            simp
          | some mq =>
            obtain ⟨m, mp⟩ := mq
            obtain ⟨j, hj, hk3⟩ :=
              doPrevZ_pred c2 l2 i2 r2 q (some (m, mp)) hdp
            simp only at hk3
            rw [hfil, getLast?_map, hj]
            simp only [Option.map_some]
            rw [hk3]
            simp

/-- Witness for `findGE_findLE_spec` on the tree {1, 3, 8} with k = 4:
FindGE(4) is at 8 and FindLE(4) is at 3. -/
theorem findGE_findLE_spec_witness :
    (RBTree.findGE
        ⟨.node .black (.node .red .nil ⟨1, 10⟩ .nil) ⟨3, 30⟩
          (.node .red .nil ⟨8, 80⟩ .nil), some 1, some 8, 3⟩ 4 =
      Iter.atKey 8) ∧
    (RBTree.findLE
        ⟨.node .black (.node .red .nil ⟨1, 10⟩ .nil) ⟨3, 30⟩
          (.node .red .nil ⟨8, 80⟩ .nil), some 1, some 8, 3⟩ 4 =
      Iter.atKey 3) := by
  have h := findGE_findLE_spec
    (t := ⟨.node .black (.node .red .nil ⟨1, 10⟩ .nil) ⟨3, 30⟩
      (.node .red .nil ⟨8, 80⟩ .nil), some 1, some 8, 3⟩) (k := 4)
    (by decide) (by decide) (by decide) (by decide)
  exact ⟨h.1.trans (by decide), h.2.trans (by decide)⟩

/-- Claim C4 as stated fails: on the well-formed single-node tree holding
`2^62` (sorted keys, correct caches), searching for `k = -2^62 - 1` makes
the comparison `key - n.item.Key = -2^63 - 1` wrap to `2^63 - 1 > 0`, so
the descent goes right and falls off the tree: `FindGE` answers `Limit`
although the stored key `2^62` is `≥ k`, and `FindLE` answers the cached
max `2^62` although no stored key is `≤ k`. -/
theorem findGE_wrap_counterexample :
    (keys c4ceT.root).Pairwise (· < ·) ∧
    c4ceT.maxNode = (keys c4ceT.root).getLast? ∧
    c4ceT.findGE (-(2 ^ 62) - 1) = Iter.limit ∧
    c4ceT.findLE (-(2 ^ 62) - 1) = Iter.atKey (2 ^ 62) := by
  decide

/-! ## Claim C5: Copy is a deep copy -/

theorem strip_eq_nil {T : ANode} (h : T.strip = .nil) : T = .nil := by
  cases T with
  | nil => rfl
  | node a c l i r => simp [ANode.strip] at h

theorem ANode.copy_node (x : Nat) (col : Color) (l : ANode) (i : Item)
    (r : ANode) (c : Nat) : (ANode.node x col l i r).copy c =
    (.node c col (l.copy (c + 1)).1 i ((r.copy ((l.copy (c + 1)).2)).1),
      (r.copy ((l.copy (c + 1)).2)).2) := by
  cases hcl : l.copy (c + 1) with
  | mk l2 c1 =>
    cases hcr : r.copy c1 with
    | mk r2 c2 => simp [ANode.copy, hcl, hcr]

theorem copy_strip : ∀ (T : ANode) (c : Nat),
    ((T.copy c).1).strip = T.strip := by
  intro T
  induction T with
  | nil => intro c; rfl
  | node a col l i r ihl ihr =>
    intro c
    rw [ANode.copy_node]
    simp only [ANode.strip]
    rw [ihl, ihr]

theorem copy_counter_mono : ∀ (T : ANode) (c : Nat), c ≤ (T.copy c).2 := by
  intro T
  induction T with
  | nil => intro c; exact le_refl c
  | node a col l i r ihl ihr =>
    intro c
    rw [ANode.copy_node]
    have h1 := ihl (c + 1)
    have h2 := ihr ((l.copy (c + 1)).2)
    simp only
    omega

theorem copy_addrs_bound : ∀ (T : ANode) (c : Nat),
    ∀ a ∈ (T.copy c).1.addrs, c ≤ a ∧ a < (T.copy c).2 := by
  intro T
  induction T with
  | nil => intro c a ha; simp [ANode.copy, ANode.addrs] at ha
  | node x col l i r ihl ihr =>
    intro c a ha
    rw [ANode.copy_node] at ha ⊢
    simp only [ANode.addrs, List.mem_cons, List.mem_append] at ha
    have hm1 := copy_counter_mono l (c + 1)
    have hm2 := copy_counter_mono r ((l.copy (c + 1)).2)
    simp only
    rcases ha with (rfl | ha) | ha
    · omega
    · have h3 := ihl (c + 1) a ha
      omega
    · have h3 := ihr ((l.copy (c + 1)).2) a ha
      omega

theorem head?_append_left {α : Type} (l1 l2 : List α) (h : l1 ≠ []) :
    (l1 ++ l2).head? = l1.head? := by
  cases l1 with
  | nil => exact absurd rfl h
  | cons a as => rfl

theorem cells_addr_mem : ∀ (T : ANode) (a : Nat) (i : Item),
    (a, i) ∈ T.cells → a ∈ T.addrs := by
  intro T
  induction T with
  | nil => intro a i h; simp [ANode.cells] at h
  | node x col l j r ihl ihr =>
    intro a i h
    have h2 : (a, i) = (x, j) ∨ (a, i) ∈ l.cells ∨ (a, i) ∈ r.cells := by
      simpa [ANode.cells, or_assoc] using h
    have hgoal : a = x ∨ a ∈ l.addrs ∨ a ∈ r.addrs := by
      rcases h2 with h2 | h2 | h2
      · exact Or.inl (congrArg Prod.fst h2)
      · exact Or.inr (Or.inl (ihl a i h2))
      · exact Or.inr (Or.inr (ihr a i h2))
    simpa [ANode.addrs, or_assoc] using hgoal

theorem atAddr_not_mem : ∀ (T : ANode) (a : Nat), a ∉ T.addrs →
    T.atAddr a = none := by
  intro T
  induction T with
  | nil => intro a h; rfl
  | node x col l j r ihl ihr =>
    intro a h
    have h2 : ¬(a = x ∨ a ∈ l.addrs ∨ a ∈ r.addrs) := by
      intro hcon
      exact h (by simpa [ANode.addrs, or_assoc] using hcon)
    push_neg at h2
    simp only [ANode.atAddr]
    rw [if_neg h2.1, ihl a h2.2.1, ihr a h2.2.2]

theorem atAddr_of_cell : ∀ (T : ANode) (a : Nat) (i : Item),
    T.addrs.Nodup → (a, i) ∈ T.cells → T.atAddr a = some i := by
  intro T
  induction T with
  | nil => intro a i hnd h; simp [ANode.cells] at h
  | node x col l j r ihl ihr =>
    intro a i hnd h
    have hnd2 : ((x :: l.addrs) ++ r.addrs).Nodup := by
      simpa [ANode.addrs] using hnd
    rw [List.nodup_append] at hnd2
    obtain ⟨hndxl, hndr, hdisj⟩ := hnd2
    rw [List.nodup_cons] at hndxl
    obtain ⟨hx, hndl⟩ := hndxl
    have h2 : (a, i) = (x, j) ∨ (a, i) ∈ l.cells ∨ (a, i) ∈ r.cells := by
      simpa [ANode.cells, or_assoc] using h
    simp only [ANode.atAddr]
    rcases h2 with h2 | h2 | h2
    · rw [Prod.mk.injEq] at h2
      obtain ⟨rfl, rfl⟩ := h2
      rw [if_pos rfl]
    · have ha : a ∈ l.addrs := cells_addr_mem l a i h2
      rw [if_neg (by rintro rfl; exact hx ha)]
      rw [ihl a i hndl h2]
    · have ha : a ∈ r.addrs := cells_addr_mem r a i h2
      have hax : a ≠ x := by
        rintro rfl
        exact hdisj (List.mem_cons_self a l.addrs) ha
      have hal : a ∉ l.addrs := fun hmem =>
        hdisj (List.mem_cons_of_mem x hmem) ha
      rw [if_neg hax, atAddr_not_mem l a hal, ihr a i hndr h2]

theorem leftAddr_cell : ∀ (T : ANode), T ≠ .nil →
    ∃ a0 i0, T.leftAddr = some a0 ∧ (a0, i0) ∈ T.cells ∧
      (items T.strip).head? = some i0 := by
  intro T
  induction T with
  | nil => intro h; exact absurd rfl h
  | node x col l j r ihl ihr =>
    intro hne
    cases l with
    | nil =>
      refine ⟨x, j, rfl, by simp [ANode.cells], ?_⟩
      simp [ANode.strip, items]
    | node lx lc ll li lr =>
      obtain ⟨a0, i0, h1, h2, h3⟩ := ihl (by simp)
      refine ⟨a0, i0, ?_, ?_, ?_⟩
      · rw [show (ANode.node x col (.node lx lc ll li lr) j r).leftAddr =
          (ANode.node lx lc ll li lr).leftAddr from rfl]
        exact h1
      · rw [show (ANode.node x col (.node lx lc ll li lr) j r).cells =
          ((x, j) :: (ANode.node lx lc ll li lr).cells) ++ r.cells from
          by simp [ANode.cells]]
        exact List.mem_append_left _ (List.mem_cons_of_mem _ h2)
      · rw [show items (ANode.node x col (.node lx lc ll li lr) j r).strip =
          items (ANode.node lx lc ll li lr).strip ++
            j :: items r.strip from by simp [ANode.strip, items]]
        rw [head?_append_left _ _ (by simp [ANode.strip, items]), h3]

theorem rightAddr_cell : ∀ (T : ANode), T ≠ .nil →
    ∃ a0 i0, T.rightAddr = some a0 ∧ (a0, i0) ∈ T.cells ∧
      (items T.strip).getLast? = some i0 := by
  intro T
  induction T with
  | nil => intro h; exact absurd rfl h
  | node x col l j r ihl ihr =>
    intro hne
    cases r with
    | nil =>
      refine ⟨x, j, rfl, by simp [ANode.cells], ?_⟩
      rw [show items (ANode.node x col l j ANode.nil).strip =
        items l.strip ++ [j] from by simp [ANode.strip, items]]
      rw [getLast?_append_right _ _ (by simp)]
      rfl
    | node rx rc rl ri rr =>
      obtain ⟨a0, i0, h1, h2, h3⟩ := ihr (by simp)
      refine ⟨a0, i0, ?_, ?_, ?_⟩
      · rw [show (ANode.node x col l j (.node rx rc rl ri rr)).rightAddr =
          (ANode.node rx rc rl ri rr).rightAddr from rfl]
        exact h1
      · rw [show (ANode.node x col l j (.node rx rc rl ri rr)).cells =
          ((x, j) :: l.cells) ++ (ANode.node rx rc rl ri rr).cells from
          by simp [ANode.cells]]
        exact List.mem_append_right _ h2
      · rw [show items (ANode.node x col l j (.node rx rc rl ri rr)).strip =
          (items l.strip ++ [j]) ++
            items (ANode.node rx rc rl ri rr).strip from
            by simp [ANode.strip, items]]
        rw [getLast?_append_right _ _ (by simp [ANode.strip, items]), h3]

theorem append_eq_singleton {α : Type} {A B : List α} {x : α}
    (h : A ++ B = [x]) : (A = [x] ∧ B = []) ∨ (A = [] ∧ B = [x]) := by
  cases A with
  | nil => exact Or.inr ⟨rfl, by simpa using h⟩
  | cons a as =>
    rw [List.cons_append] at h
    rw [List.cons.injEq] at h
    obtain ⟨rfl, h2⟩ := h
    rw [List.append_eq_nil] at h2
    exact Or.inl ⟨by rw [h2.1], h2.2⟩

theorem filter_map_snd (P : Item → Bool) : ∀ (l : List (Nat × Item)),
    (l.map Prod.snd).filter P = (l.filter (fun c => P c.2)).map Prod.snd := by
  intro l
  induction l with
  | nil => rfl
  | cons a as ih =>
    by_cases h : P a.2 = true
    · simp only [List.map_cons, List.filter_cons, h, if_true]
      rw [ih]
    · have hb : P a.2 = false := by simpa using h
      simp only [List.map_cons, List.filter_cons, hb]
      rw [ih]
      simp

theorem cells_snd_perm : ∀ (T : ANode),
    ((ANode.cells T).map Prod.snd).Perm (items T.strip) := by
  intro T
  induction T with
  | nil => exact List.Perm.refl _
  | node x col l j r ihl ihr =>
    rw [show (ANode.node x col l j r).cells =
      (x, j) :: (l.cells ++ r.cells) from by simp [ANode.cells]]
    rw [show items (ANode.node x col l j r).strip =
      items l.strip ++ j :: items r.strip from by simp [ANode.strip, items]]
    rw [List.map_cons, List.map_append]
    refine List.Perm.trans ?_ List.perm_middle.symm
    exact List.Perm.cons j (List.Perm.append ihl ihr)

theorem filter_eq_singleton_of_nodup {α : Type} [DecidableEq α] :
    ∀ (l : List α), l.Nodup → ∀ m ∈ l,
    l.filter (fun x => x = m) = [m] := by
  intro l
  induction l with
  | nil => intro hnd m hm; simp at hm
  | cons a as ih =>
    intro hnd m hm
    rw [List.nodup_cons] at hnd
    rcases List.mem_cons.mp hm with rfl | hm
    · rw [List.filter_cons_of_pos (by simp)]
      rw [filter_all_false _ _ (fun x hx => by
        simp only [decide_eq_false_iff_not]
        rintro rfl
        exact hnd.1 hx)]
    · rw [List.filter_cons_of_neg (by
        simp only [decide_eq_true_eq]
        rintro rfl
        exact hnd.1 hm)]
      exact ih hnd.2 m hm

theorem cellsOf_toQueue (t : ANode) :
    (t.toQueue.map ANode.cells).flatten = t.cells := by
  cases t <;> simp [ANode.toQueue, ANode.cells]

theorem swap_append_singleton {α : Type} {A B : List α} {x : α}
    (h : A ++ B = [x]) : B ++ A = [x] := by
  rcases append_eq_singleton h with ⟨h1, h2⟩ | ⟨h1, h2⟩ <;> simp [h1, h2]

theorem sideInv_found {it : Item} {aT a : Nat} {col : Color} {l r : ANode}
    {i : Item} {rest : List ANode} {f : Option Nat}
    (h : SideInv it aT (ANode.node a col l i r :: rest) f)
    (hne : (if i = it then some a else f) ≠ none) :
    (if i = it then some a else f) = some aT := by
  have hflat : ((ANode.node a col l i r :: rest).map ANode.cells).flatten =
      (a, i) :: ((l.cells ++ r.cells) ++ (rest.map ANode.cells).flatten) := by
    simp [ANode.cells]
  by_cases hi : i = it
  · rw [if_pos hi]
    rcases h with ⟨hf, h1⟩ | ⟨hf, h1⟩
    · exfalso
      rw [hflat, List.filter_cons_of_pos (by simp [hi])] at h1
      simp at h1
    · rw [hflat, List.filter_cons_of_pos (by simp [hi])] at h1
      rw [List.cons.injEq] at h1
      obtain ⟨he, h2⟩ := h1
      rw [Prod.mk.injEq] at he
      rw [he.1]
  · rw [if_neg hi]
    rw [if_neg hi] at hne
    rcases h with ⟨hf, h1⟩ | ⟨hf, h1⟩
    · exact hf
    · exact absurd hf hne

theorem sideInv_step {it : Item} {aT a : Nat} {col : Color} {l r : ANode}
    {i : Item} {rest : List ANode} {f : Option Nat}
    (h : SideInv it aT (ANode.node a col l i r :: rest) f) :
    SideInv it aT (rest ++ l.toQueue ++ r.toQueue)
      (if i = it then some a else f) := by
  have hflat : ((ANode.node a col l i r :: rest).map ANode.cells).flatten =
      (a, i) :: ((l.cells ++ r.cells) ++ (rest.map ANode.cells).flatten) := by
    simp [ANode.cells]
  have hnew : ((rest ++ l.toQueue ++ r.toQueue).map ANode.cells).flatten =
      (rest.map ANode.cells).flatten ++ (l.cells ++ r.cells) := by
    simp [cellsOf_toQueue]
  by_cases hi : i = it
  · rw [if_pos hi]
    rcases h with ⟨hf, h1⟩ | ⟨hf, h1⟩
    · exfalso
      rw [hflat, List.filter_cons_of_pos (by simp [hi])] at h1
      simp at h1
    · rw [hflat, List.filter_cons_of_pos (by simp [hi])] at h1
      rw [List.cons.injEq] at h1
      obtain ⟨he, h2⟩ := h1
      rw [Prod.mk.injEq] at he
      left
      refine ⟨by rw [he.1], ?_⟩
      rw [List.filter_append, List.append_eq_nil] at h2
      rw [hnew, List.filter_append, h2.1, h2.2]
      rfl
  · rw [if_neg hi]
    rcases h with ⟨hf, h1⟩ | ⟨hf, h1⟩
    · left
      refine ⟨hf, ?_⟩
      rw [hflat, List.filter_cons_of_neg (by simp [hi])] at h1
      rw [List.filter_append, List.append_eq_nil] at h1
      rw [hnew, List.filter_append, h1.1, h1.2]
      rfl
    · right
      refine ⟨hf, ?_⟩
      rw [hflat, List.filter_cons_of_neg (by simp [hi])] at h1
      rw [List.filter_append] at h1
      rw [hnew, List.filter_append]
      exact swap_append_singleton h1

theorem bfsLocate_finds (minItem maxItem : Item) (aMin aMax : Nat) :
    ∀ (Q : List ANode) (mf xf : Option Nat),
    SideInv minItem aMin Q mf → SideInv maxItem aMax Q xf →
    bfsLocate minItem maxItem Q mf xf = (some aMin, some aMax) := by
  intro Q mf xf
  induction Q, mf, xf using bfsLocate.induct minItem maxItem with
  | case1 mf xf =>
    intro hmin hmax
    rcases hmin with ⟨rfl, h1⟩ | ⟨rfl, h1⟩
    · rcases hmax with ⟨rfl, h2⟩ | ⟨rfl, h2⟩
      · simp [bfsLocate]
      · simp at h2
    · simp at h1
  | case2 rest mf xf ih =>
    intro hmin hmax
    have hstep : bfsLocate minItem maxItem (ANode.nil :: rest) mf xf =
        bfsLocate minItem maxItem rest mf xf := by
      simp [bfsLocate]
    rw [hstep]
    refine ih ?_ ?_
    · rcases hmin with ⟨hf, h1⟩ | ⟨hf, h1⟩
      · exact Or.inl ⟨hf, by simpa [ANode.cells] using h1⟩
      · exact Or.inr ⟨hf, by simpa [ANode.cells] using h1⟩
    · rcases hmax with ⟨hf, h1⟩ | ⟨hf, h1⟩
      · exact Or.inl ⟨hf, by simpa [ANode.cells] using h1⟩
      · exact Or.inr ⟨hf, by simpa [ANode.cells] using h1⟩
  | case3 a col l i r rest mf xf minF maxF hcond =>
    intro hmin hmax
    have hcond2 : (if i = minItem then some a else mf) ≠ none ∧
        (if i = maxItem then some a else xf) ≠ none := hcond
    simp only [bfsLocate]
    rw [if_pos hcond2]
    rw [Prod.mk.injEq]
    exact ⟨sideInv_found hmin hcond2.1, sideInv_found hmax hcond2.2⟩
  | case4 a col l i r rest mf xf minF maxF hcond ih =>
    intro hmin hmax
    have hcond2 : ¬((if i = minItem then some a else mf) ≠ none ∧
        (if i = maxItem then some a else xf) ≠ none) := hcond
    simp only [bfsLocate]
    rw [if_neg hcond2]
    exact ih (sideInv_step hmin) (sideInv_step hmax)

theorem mem_of_head?_eq {α : Type} {l : List α} {x : α}
    (h : l.head? = some x) : x ∈ l := by
  cases l with
  | nil => simp at h
  | cons a as =>
    simp only [List.head?_cons, Option.some.injEq] at h
    rw [← h]
    exact List.mem_cons_self a as

theorem mem_of_getLast?_eq {α : Type} : ∀ {l : List α} {x : α},
    l.getLast? = some x → x ∈ l := by
  intro l
  induction l with
  | nil => intro x h; simp at h
  | cons a as ih =>
    intro x h
    cases as with
    | nil =>
      simp only [List.getLast?_singleton, Option.some.injEq] at h
      rw [← h]
      exact List.mem_cons_self a []
    | cons b bs =>
      rw [List.getLast?_cons_cons] at h
      exact List.mem_cons_of_mem a (ih h)

theorem eq_singleton_of_length_one {α : Type} {l : List α} {x : α}
    (hlen : l.length = 1) (hm : x ∈ l) : l = [x] := by
  cases l with
  | nil => simp at hm
  | cons a as =>
    cases as with
    | nil =>
      rcases List.mem_cons.mp hm with rfl | hm
      · rfl
      · simp at hm
    | cons b bs => simp at hlen

theorem nodup_items_of_sorted {L : List Item}
    (h : (L.map Item.key).Pairwise (· < ·)) : L.Nodup := by
  rw [List.pairwise_map] at h
  exact List.Pairwise.imp
    (fun hlt heq => by rw [heq] at hlt; exact lt_irrefl _ hlt) h

theorem cells_filter_singleton {T : ANode} (hnd : (items T.strip).Nodup)
    {a0 : Nat} {i0 : Item} (hc : (a0, i0) ∈ T.cells)
    (hm : i0 ∈ items T.strip) :
    T.cells.filter (fun c => c.2 = i0) = [(a0, i0)] := by
  have hp := cells_snd_perm T
  have hfp := hp.filter (fun x => decide (x = i0))
  rw [filter_eq_singleton_of_nodup _ hnd i0 hm] at hfp
  have hlen := hfp.length_eq
  rw [filter_map_snd, List.length_map] at hlen
  have hmemF : (a0, i0) ∈ T.cells.filter (fun c => c.2 = i0) :=
    List.mem_filter.mpr ⟨hc, by simp⟩
  exact eq_singleton_of_length_one hlen hmemF

/-- Claim C5: `Copy()` on a non-empty tree (with the API-maintained
well-formedness: sorted keys, distinct node addresses, caches at the
leftmost/rightmost nodes, and a fresh allocator) produces a tree with the
same structure, items and count, sharing no node with the source, whose
min/max caches point at the copies of the source's minimum and maximum
nodes (the leftmost and rightmost nodes of the copy). With no shared node,
a subsequent mutation of either tree cannot change the other's contents
or `Len()`. -/
theorem copy_spec {root : ANode} {count : Int} {alloc : Nat}
    {res : ANode × (Option Nat × Option Nat) × Int × Nat}
    (hne : root ≠ .nil)
    (hsort : (keys root.strip).Pairwise (· < ·))
    (hnodup : root.addrs.Nodup)
    (hfresh : ∀ a ∈ root.addrs, a < alloc)
    (heq : copyRBTree root root.leftAddr root.rightAddr count alloc =
      some res) :
    res.1.strip = root.strip ∧
    items res.1.strip = items root.strip ∧
    res.2.2.1 = count ∧
    (∀ a ∈ res.1.addrs, a ∉ root.addrs) ∧
    res.2.1.1 = res.1.leftAddr ∧ res.2.1.2 = res.1.rightAddr := by
  obtain ⟨aMin, i0, hLa, hLc, hLh⟩ := leftAddr_cell root hne
  obtain ⟨aMax, j0, hRa, hRc, hRh⟩ := rightAddr_cell root hne
  have hat1 : root.atAddr aMin = some i0 :=
    atAddr_of_cell root aMin i0 hnodup hLc
  have hat2 : root.atAddr aMax = some j0 :=
    atAddr_of_cell root aMax j0 hnodup hRc
  rw [hLa, hRa] at heq
  simp only [copyRBTree, hat1, hat2] at heq
  cases hc : root.copy alloc with
  | mk root2 alloc2 =>
    rw [hc] at heq
    have hstrip : root2.strip = root.strip := by
      have := copy_strip root alloc
      rw [hc] at this
      exact this
    have hne2 : root2 ≠ .nil := by
      intro hcon
      apply hne
      apply strip_eq_nil
      rw [← hstrip, hcon]
      rfl
    obtain ⟨aMin2, i02, hLa2, hLc2, hLh2⟩ := leftAddr_cell root2 hne2
    obtain ⟨aMax2, j02, hRa2, hRc2, hRh2⟩ := rightAddr_cell root2 hne2
    rw [hstrip] at hLh2 hRh2
    have hi02 : i02 = i0 := by
      rw [hLh] at hLh2
      injection hLh2 with h2
      exact h2.symm
    have hj02 : j02 = j0 := by
      rw [hRh] at hRh2
      injection hRh2 with h2
      exact h2.symm
    rw [hi02] at hLc2
    rw [hj02] at hRc2
    have hnd2 : (items root2.strip).Nodup := by
      apply nodup_items_of_sorted
      rw [hstrip]
      rw [keys] at hsort
      exact hsort
    have hmem1 : i0 ∈ items root2.strip := by
      rw [hstrip]
      exact mem_of_head?_eq hLh
    have hmem2 : j0 ∈ items root2.strip := by
      rw [hstrip]
      exact mem_of_getLast?_eq hRh
    have hbfs : bfsLocate i0 j0 [root2] none none =
        (some aMin2, some aMax2) := by
      apply bfsLocate_finds
      · exact Or.inr ⟨rfl, by
          simpa using cells_filter_singleton hnd2 hLc2 hmem1⟩
      · exact Or.inr ⟨rfl, by
          simpa using cells_filter_singleton hnd2 hRc2 hmem2⟩
    rw [hbfs] at heq
    simp only [Option.some.injEq] at heq
    subst heq
    refine ⟨hstrip, by rw [hstrip], rfl, ?_, hLa2.symm, hRa2.symm⟩
    intro a ha
    have hb := copy_addrs_bound root alloc a (by rw [hc]; exact ha)
    rw [hc] at hb
    intro hmem
    exact absurd (hfresh a hmem) (by simp only at hb; omega)

/-- Witness for `copy_spec`: the three-node tree at addresses 10, 11, 12
copied with the allocator at 100. -/
theorem copy_spec_witness :
    ((ANode.node 100 .black (.node 101 .red .nil ⟨1, 10⟩ .nil) ⟨3, 30⟩
        (.node 102 .red .nil ⟨8, 80⟩ .nil), ((some 101, some 102), 3, 103)) :
        ANode × (Option Nat × Option Nat) × Int × Nat).1.strip =
      (ANode.node 10 .black (.node 11 .red .nil ⟨1, 10⟩ .nil) ⟨3, 30⟩
        (.node 12 .red .nil ⟨8, 80⟩ .nil)).strip ∧
    items ((ANode.node 100 .black (.node 101 .red .nil ⟨1, 10⟩ .nil) ⟨3, 30⟩
        (.node 102 .red .nil ⟨8, 80⟩ .nil), ((some 101, some 102), 3, 103)) :
        ANode × (Option Nat × Option Nat) × Int × Nat).1.strip =
      items (ANode.node 10 .black (.node 11 .red .nil ⟨1, 10⟩ .nil) ⟨3, 30⟩
        (.node 12 .red .nil ⟨8, 80⟩ .nil)).strip ∧
    ((ANode.node 100 .black (.node 101 .red .nil ⟨1, 10⟩ .nil) ⟨3, 30⟩
        (.node 102 .red .nil ⟨8, 80⟩ .nil), ((some 101, some 102), 3, 103)) :
        ANode × (Option Nat × Option Nat) × Int × Nat).2.2.1 = 3 ∧
    (∀ a ∈ ((ANode.node 100 .black (.node 101 .red .nil ⟨1, 10⟩ .nil) ⟨3, 30⟩
        (.node 102 .red .nil ⟨8, 80⟩ .nil), ((some 101, some 102), 3, 103)) :
        ANode × (Option Nat × Option Nat) × Int × Nat).1.addrs,
      a ∉ (ANode.node 10 .black (.node 11 .red .nil ⟨1, 10⟩ .nil) ⟨3, 30⟩
        (.node 12 .red .nil ⟨8, 80⟩ .nil)).addrs) ∧
    ((ANode.node 100 .black (.node 101 .red .nil ⟨1, 10⟩ .nil) ⟨3, 30⟩
        (.node 102 .red .nil ⟨8, 80⟩ .nil), ((some 101, some 102), 3, 103)) :
        ANode × (Option Nat × Option Nat) × Int × Nat).2.1.1 =
      ((ANode.node 100 .black (.node 101 .red .nil ⟨1, 10⟩ .nil) ⟨3, 30⟩
        (.node 102 .red .nil ⟨8, 80⟩ .nil), ((some 101, some 102), 3, 103)) :
        ANode × (Option Nat × Option Nat) × Int × Nat).1.leftAddr ∧
    ((ANode.node 100 .black (.node 101 .red .nil ⟨1, 10⟩ .nil) ⟨3, 30⟩
        (.node 102 .red .nil ⟨8, 80⟩ .nil), ((some 101, some 102), 3, 103)) :
        ANode × (Option Nat × Option Nat) × Int × Nat).2.1.2 =
      ((ANode.node 100 .black (.node 101 .red .nil ⟨1, 10⟩ .nil) ⟨3, 30⟩
        (.node 102 .red .nil ⟨8, 80⟩ .nil), ((some 101, some 102), 3, 103)) :
        ANode × (Option Nat × Option Nat) × Int × Nat).1.rightAddr :=
  @copy_spec
    (ANode.node 10 .black (.node 11 .red .nil ⟨1, 10⟩ .nil) ⟨3, 30⟩
      (.node 12 .red .nil ⟨8, 80⟩ .nil)) 3 100
    (ANode.node 100 .black (.node 101 .red .nil ⟨1, 10⟩ .nil) ⟨3, 30⟩
      (.node 102 .red .nil ⟨8, 80⟩ .nil), ((some 101, some 102), 3, 103))
    (by decide) (by decide) (by decide) (by decide)
    (by simp [copyRBTree, ANode.atAddr, ANode.copy, bfsLocate,
      ANode.toQueue, ANode.leftAddr, ANode.rightAddr])

/-! ## Claim C10: Copy on the empty tree -/

/-- Claim C10: `Copy()` on the empty RBTree (nil root, nil caches, count 0)
dereferences the nil `minNode` and panics (`none`); `Copy` is total only on
non-empty trees. -/
theorem copy_empty_panics : copyRBTree ANode.nil none none 0 0 = none := rfl

/-! ## Claim C6: Next on NegativeLimit, Prev on Limit -/

theorem sorted_foldl_min {a : Int} {xs : List Int}
    (h : ∀ x ∈ xs, a ≤ x) : xs.foldl min a = a := by
  induction xs generalizing a with
  | nil => rfl
  | cons y ys ih =>
    have hy : min a y = a := min_eq_left (h y (by simp))
    simp only [List.foldl_cons, hy]
    exact ih fun x hx => h x (by simp [hx])

theorem sorted_min?_eq_head? {l : List Int} (h : l.Pairwise (· < ·)) :
    l.min? = l.head? := by
  cases l with
  | nil => rfl
  | cons a xs =>
    have hax : ∀ x ∈ xs, a ≤ x := fun x hx =>
      le_of_lt ((List.pairwise_cons.mp h).1 x hx)
    simp [List.min?, sorted_foldl_min hax]

theorem sorted_foldl_max {a : Int} {xs : List Int}
    (h : ∀ x ∈ xs, a ≤ x) (hs : xs.Pairwise (· < ·)) :
    xs.foldl max a = xs.getLastD a := by
  induction xs generalizing a with
  | nil => rfl
  | cons y ys ih =>
    have hy : max a y = y := max_eq_right (h y (by simp))
    simp only [List.foldl_cons, hy, List.getLastD_cons]
    exact ih (fun x hx => le_of_lt ((List.pairwise_cons.mp hs).1 x hx))
      (List.pairwise_cons.mp hs).2

theorem sorted_max?_eq_getLast? {l : List Int} (h : l.Pairwise (· < ·)) :
    l.max? = l.getLast? := by
  cases l with
  | nil => rfl
  | cons a xs =>
    have hax : ∀ x ∈ xs, a ≤ x := fun x hx =>
      le_of_lt ((List.pairwise_cons.mp h).1 x hx)
    simp [List.max?, sorted_foldl_max hax (List.pairwise_cons.mp h).2,
      List.getLast?_cons]

/-- Claim C6: on every RBTree whose min/max caches hold the leftmost and
rightmost nodes (as in every tree the API builds) and whose keys are in
search order, `Next` on `NegativeLimit` is the iterator at the minimum
stored key — Go `Min()`, the `Limit` iterator on the empty tree — and
`Prev` on `Limit` is the iterator at the maximum stored key (`Max()`,
`NegativeLimit` on the empty tree). -/
theorem next_prev_at_sentinels (t : RBTree)
    (hsort : (keys t.root).Pairwise (· < ·))
    (hmin : t.minNode = (keys t.root).head?)
    (hmax : t.maxNode = (keys t.root).getLast?) :
    t.iterNext Iter.negativeLimit =
      some (match (keys t.root).min? with
        | none => Iter.limit
        | some k => Iter.atKey k) ∧
    t.iterNext Iter.negativeLimit = some t.minIter ∧
    t.iterPrev Iter.limit =
      some (match (keys t.root).max? with
        | none => Iter.negativeLimit
        | some k => Iter.atKey k) ∧
    t.iterPrev Iter.limit = some t.maxIter := by
  rw [sorted_min?_eq_head? hsort, sorted_max?_eq_getLast? hsort]
  refine ⟨?_, ?_, ?_, ?_⟩ <;>
    simp only [RBTree.iterNext, RBTree.iterPrev, RBTree.minIter,
      RBTree.maxIter, hmin, hmax]

/-- Witness for `next_prev_at_sentinels` on the tree {1, 2, 3}. -/
theorem next_prev_at_sentinels_witness :
    (RBTree.iterNext
        ⟨Node.node .black (Node.node .red .nil ⟨1, 1⟩ .nil) ⟨2, 2⟩
          (Node.node .red .nil ⟨3, 3⟩ .nil), some 1, some 3, 3⟩
        Iter.negativeLimit = some (Iter.atKey 1)) ∧
    (RBTree.iterPrev
        ⟨Node.node .black (Node.node .red .nil ⟨1, 1⟩ .nil) ⟨2, 2⟩
          (Node.node .red .nil ⟨3, 3⟩ .nil), some 1, some 3, 3⟩
        Iter.limit = some (Iter.atKey 3)) := by
  have h := next_prev_at_sentinels
    ⟨Node.node .black (Node.node .red .nil ⟨1, 1⟩ .nil) ⟨2, 2⟩
      (Node.node .red .nil ⟨3, 3⟩ .nil), some 1, some 3, 3⟩
    (by decide) (by decide) (by decide)
  exact ⟨h.1.trans (by decide), h.2.2.1.trans (by decide)⟩

end RB

end Hercules
